import Mathlib

/-!
Verification development for the Graph-Theory visual editor (`src/src/App.js`).

The graph data model, the seven stepwise algorithm state machines and the
editor operations are shallowly embedded below, translated from the React
component in `src/src/App.js`:

* node `uniqueId` strings (`node-${Date.now()}-${Math.random()}`) are
  modelled as natural numbers; node visible ids are naturals;
* edge weights (JS floats entered through a prompt) are modelled as
  integers; the claims under study only involve integer weights;
* a JS number that can be `Infinity` (tentative distances) is modelled as
  `Option`, `none` standing for `Infinity` (and for the `undefined` that
  a lookup of a non-node key would produce — no claim distinguishes them);
* JS `Set` objects become `Finset Nat` (order is never observed by the
  embedded operations except where noted, in which case a `List` is used);
* JS objects used as maps become functions `Nat → Option _`, except where
  their key enumeration order is observed (`finishTimes`), where an
  association list in insertion order is used;
* `Array.prototype.sort`, which is stable in JS, is modelled by the stable
  insertion sort `stableSort` below, with `le a b` meaning
  "comparator(a,b) ≤ 0";
* React `setState` updater chains are modelled by function composition;
  the driving `setTimeout` loops are modelled by fuel-indexed recursion
  that repeats exactly the source's continuation test.

Where the source would throw on data that its own invariants exclude
(e.g. a queue entry whose node was never created), the embedded step
returns the state unchanged; such branches are noted and are never taken
in the runs analysed here.
-/

/-- Stable insertion: `x` is placed after every already-present element `y`
with `le y x`, so elements that compare equal keep their original order —
the same output as JS's stable `Array.prototype.sort` for a consistent
comparator. -/
def sortedInsert {α : Type} (le : α → α → Bool) (x : α) : List α → List α
  | [] => [x]
  | y :: ys => if le y x then y :: sortedInsert le x ys else x :: y :: ys

/-- Stable sort modelling `Array.prototype.sort(cmp)`; `le a b` renders
`cmp(a,b) <= 0`. -/
def stableSort {α : Type} (le : α → α → Bool) (l : List α) : List α :=
  l.foldl (fun acc x => sortedInsert le x acc) []

theorem sortedInsert_perm {α : Type} (le : α → α → Bool) (x : α) (l : List α) :
    (sortedInsert le x l).Perm (x :: l) := by
  induction l with
  | nil => simp [sortedInsert]
  | cons y ys ih =>
    simp only [sortedInsert]
    split
    · exact (ih.cons y).trans (List.Perm.swap x y ys)
    · exact List.Perm.refl _

theorem stableSort_perm {α : Type} (le : α → α → Bool) (l : List α) :
    (stableSort le l).Perm l := by
  suffices h : ∀ acc : List α, (l.foldl (fun acc x => sortedInsert le x acc) acc).Perm (acc ++ l) by
    simpa using h []
  induction l with
  | nil => simp
  | cons y ys ih =>
    intro acc
    simp only [List.foldl_cons]
    refine (ih (sortedInsert le y acc)).trans ?_
    exact (((sortedInsert_perm le y acc).append_right ys).trans List.perm_middle.symm)

theorem mem_stableSort {α : Type} (le : α → α → Bool) (l : List α) (x : α) :
    x ∈ stableSort le l ↔ x ∈ l :=
  (stableSort_perm le l).mem_iff

theorem length_stableSort {α : Type} (le : α → α → Bool) (l : List α) :
    (stableSort le l).length = l.length :=
  (stableSort_perm le l).length_eq

/-- Evaluating a left fold of pointwise `Function.update`s with a constant
value: keys in the list get the value, all others keep the old binding. -/
theorem foldl_update_eval {β : Type} {m : Nat → β} {v : β} (l : List Nat) (x : Nat) :
    (l.foldl (fun m nb => Function.update m nb v) m) x = if x ∈ l then v else m x := by
  induction l generalizing m with
  | nil => simp
  | cons y ys ih =>
    simp only [List.foldl_cons, ih, List.mem_cons]
    by_cases hxy : x = y
    · subst hxy
      by_cases hxs : x ∈ ys <;> simp [hxs, Function.update_apply]
    · by_cases hxs : x ∈ ys <;> simp [hxs, Function.update_apply, hxy]

/-! ## Graph data model (`nodes`, `edges` React state) -/

/-- A node: `id` is the visible, counter-assigned id; `uid` models the
opaque `uniqueId` string.  The `(x, y)` position is not modelled: no
embedded operation reads it. -/
structure Node where
  id : Nat
  uid : Nat
deriving DecidableEq, Repr

/-- An edge as stored in the `edges` array: `source`/`target` are node
`uniqueId`s, `id` is the counter-assigned edge id. -/
structure Edge where
  id : Nat
  source : Nat
  target : Nat
  weight : Int
deriving DecidableEq, Repr

/-- The graph store: node list, edge list and the two mode flags. -/
structure Graph where
  nodes : List Node
  edges : List Edge
  isDirected : Bool
  isWeighted : Bool
deriving DecidableEq, Repr

/-- `idMapping[uid]` as built in `getAdjacencyList`: a `forEach` writing
into an object, so the LAST node with that `uniqueId` wins. -/
def idMapping (g : Graph) (u : Nat) : Option Nat :=
  g.nodes.foldl (fun acc n => if n.uid = u then some n.id else acc) none

/-- `nodes.find(n => n.uniqueId === u)` — first match. -/
def nodeOfUid (g : Graph) (u : Nat) : Option Node :=
  g.nodes.find? (fun n => n.uid = u)

/-- `nodes.find(n => n.id === i)` — first match. -/
def nodeOfId (g : Graph) (i : Nat) : Option Node :=
  g.nodes.find? (fun n => n.id = i)

/-- `nodes.find(n => n.uniqueId === u)?.id || 0` (node ids never render as
a falsy non-zero value, so `|| 0` is exactly `getD 0`). -/
def visId (g : Graph) (u : Nat) : Nat :=
  ((nodeOfUid g u).map (fun n => n.id)).getD 0

/-- One `{node, weight}` entry of the derived adjacency list; `node` is
`idMapping[...]`, which is `undefined` (here `none`) when the endpoint
references no live node. -/
structure AdjEntry where
  node : Option Nat
  weight : Int
deriving DecidableEq, Repr

/-- `getAdjacencyList()[i]`: each edge contributes a forward entry to its
source's list and, when undirected, a mirrored entry to its target's
list, in edge-array order.  For an `i` that is no node's id the JS object
has no such key; `[]` is returned here (the source code only indexes the
list with live node ids). -/
def adjacencyList (g : Graph) (i : Nat) : List AdjEntry :=
  g.edges.flatMap (fun e =>
    (if idMapping g e.source = some i then [⟨idMapping g e.target, e.weight⟩] else [])
      ++ (if g.isDirected = false ∧ idMapping g e.target = some i
            then [⟨idMapping g e.source, e.weight⟩] else []))

/-! ## BFS (`startBFS`, `runBFSStep`, `togglePauseBFS`) -/

/-- The `bfsAnimationState` React state.  `distances` values are JS
numbers that start at `Infinity` (`none`). -/
structure BFSState where
  isRunning : Bool
  isPaused : Bool
  visitedNodes : Finset Nat
  visitedEdges : Finset Nat
  queue : List Nat
  currentNode : Option Nat
  sourceNode : Option Nat
  predecessors : Nat → Option Nat
  distances : Nat → Option Nat

/-- The `useState` initial value of `bfsAnimationState` (also the state
`resetBFS` produces). -/
def bfsIdle : BFSState where
  isRunning := false
  isPaused := false
  visitedNodes := ∅
  visitedEdges := ∅
  queue := []
  currentNode := none
  sourceNode := none
  predecessors := fun _ => none
  distances := fun _ => none

/-- `startBFS(sourceNodeId)`: `none` models the early `return`s (already
running, or no node with that visible id), in which case no run starts
and the state is untouched. -/
def startBFS (g : Graph) (st : BFSState) (sourceNodeId : Nat) : Option BFSState :=
  if st.isRunning then none else
  match nodeOfId g sourceNodeId with
  | none => none
  | some sourceNode => some
    { st with
      isRunning := true
      isPaused := false
      visitedNodes := {sourceNode.uid}
      visitedEdges := ∅
      queue := [sourceNode.uid]
      currentNode := some sourceNode.uid
      sourceNode := some sourceNode.uid
      predecessors := fun _ => none
      distances := fun u => if u = sourceNode.uid then some 0 else none }

/-- The unvisited-neighbor collection of `runBFSStep`, before sorting:
adjacency entries of the current node's visible id, resolved back to node
objects (`nodes.find(n => n.id === node)`), dropping unresolvable ones,
keeping the unvisited. -/
def bfsNeighborNodes (g : Graph) (visited : Finset Nat) (curNd : Node) : List Node :=
  ((adjacencyList g curNd.id).filterMap (fun en => en.node.bind (nodeOfId g))).filter
    (fun nd => decide (nd.uid ∉ visited))

/-- The `sortedNeighborIds` of `runBFSStep`: the unvisited neighbors
sorted ascending by visible id (the JS stable sort on `visibleId`),
projected to their `uniqueId`s. -/
def bfsNews (g : Graph) (visited : Finset Nat) (curNd : Node) : List Nat :=
  (stableSort (fun a b => a.id ≤ b.id) (bfsNeighborNodes g visited curNd)).map
    (fun nd => nd.uid)

/-- One `runBFSStep` state transition (the synchronous `setBfsAnimationState`
updater; the trailing `setTimeout` continuation is `bfsLoop` below).
When the head of the queue resolves to no live node the source would
throw (`nodes.find(...).id`); that branch returns the state unchanged and
is never reached from a well-formed start. -/
def runBFSStep (g : Graph) (st : BFSState) : BFSState :=
  if st.queue = [] ∨ st.isPaused then st else
  match st.queue with
  | [] => st
  | currentNode :: newQueue =>
    match nodeOfUid g currentNode with
    | none => st
    | some curNd =>
      let sortedNeighborIds := bfsNews g st.visitedNodes curNd
      let newPredecessors := sortedNeighborIds.foldl
        (fun m nb => Function.update m nb (some currentNode)) st.predecessors
      let newDistances := sortedNeighborIds.foldl
        (fun m nb => Function.update m nb ((st.distances currentNode).map (· + 1))) st.distances
      let newVisitedEdges := sortedNeighborIds.foldl
        (fun s nb =>
          match g.edges.find? (fun e =>
              (e.source = currentNode ∧ e.target = nb)
                ∨ (g.isDirected = false ∧ e.target = currentNode ∧ e.source = nb)) with
          | some e => insert e.id s
          | none => s) st.visitedEdges
      { st with
        queue := newQueue ++ sortedNeighborIds
        visitedNodes := st.visitedNodes ∪ sortedNeighborIds.toFinset
        visitedEdges := newVisitedEdges
        currentNode := some currentNode
        predecessors := newPredecessors
        distances := newDistances }

/-- The `setTimeout` continuation of `runBFSStep`, iterated: keep stepping
while the queue is non-empty and the run is not paused; once the queue
empties, clear `isRunning`. -/
def bfsLoop (g : Graph) : Nat → BFSState → BFSState
  | 0, st => st
  | fuel + 1, st =>
    let st := runBFSStep g st
    if st.queue ≠ [] ∧ st.isPaused = false then bfsLoop g fuel st
    else if st.queue = [] then { st with isRunning := false }
    else st

/-- `togglePauseBFS`: flips `isPaused`; when that un-pauses a run with a
non-empty queue it immediately performs one step. -/
def togglePauseBFS (g : Graph) (st : BFSState) : BFSState :=
  let newState := { st with isPaused := !st.isPaused }
  if newState.isPaused = false ∧ newState.queue ≠ [] then runBFSStep g newState
  else newState

/-! ## Dijkstra (`startDijkstra`, `initializeDijkstra`, `runDijkstraStep`,
`togglePauseDijkstra`) -/

/-- The `dijkstraAnimationState` React state. -/
structure DijkstraState where
  isRunning : Bool
  isPaused : Bool
  visitedNodes : Finset Nat
  visitedEdges : Finset Nat
  currentNode : Option Nat
  sourceNode : Option Nat
  predecessors : Nat → Option Nat
  distances : Nat → Option Int
  priorityQueue : List (Nat × Int)
  processedNodes : Finset Nat
  currentEdge : Option Nat
  relaxedEdges : Finset Nat
  iterationCount : Nat

/-- The `useState` initial value of `dijkstraAnimationState` (also what
`resetDijkstra` writes). -/
def dijkstraIdle : DijkstraState where
  isRunning := false
  isPaused := false
  visitedNodes := ∅
  visitedEdges := ∅
  currentNode := none
  sourceNode := none
  predecessors := fun _ => none
  distances := fun _ => none
  priorityQueue := []
  processedNodes := ∅
  currentEdge := none
  relaxedEdges := ∅
  iterationCount := 0

/-- Which branch `startDijkstra()` takes.  The three reject branches show
an `alert(...)` and `return` without touching `dijkstraAnimationState`;
the success branch only sets the editor mode and prompts for a source. -/
inductive DijkstraStartOutcome where
  | alreadyRunning
  | rejectedUndirected
  | rejectedNegativeWeights
  | promptForSource
deriving DecidableEq, Repr

/-- `startDijkstra()`: the precondition gate.  It never initializes or
steps the run; the run state is returned unchanged in every branch. -/
def startDijkstra (g : Graph) (st : DijkstraState) : DijkstraState × DijkstraStartOutcome :=
  if st.isRunning then (st, .alreadyRunning)
  else if g.isDirected = false then (st, .rejectedUndirected)
  else if g.edges.any (fun e => e.weight < 0) then (st, .rejectedNegativeWeights)
  else (st, .promptForSource)

/-- One `runDijkstraStep` transition (the synchronous updater).  The JS
sorts the priority queue in place and `shift()`s the head, so both the
skip branch and the process branch continue with the sorted tail. -/
def runDijkstraStep (g : Graph) (st : DijkstraState) : DijkstraState :=
  if st.isPaused ∨ st.priorityQueue = [] then st else
  let sortedPQ := stableSort
    (fun a b => a.2 < b.2 ∨ (a.2 = b.2 ∧ visId g a.1 ≤ visId g b.1)) st.priorityQueue
  match sortedPQ with
  | [] => st
  | (currentNode, _) :: rest =>
    if currentNode ∈ st.processedNodes then
      { st with priorityQueue := rest, iterationCount := st.iterationCount + 1 }
    else
      let newProcessedNodes := insert currentNode st.processedNodes
      match nodeOfUid g currentNode with
      | none => st
      | some curNd =>
        let sortedNeighbors := stableSort
          (fun a b => a.node.getD 0 ≤ b.node.getD 0) (adjacencyList g curNd.id)
        let acc := sortedNeighbors.foldl
          (fun (acc : (Nat → Option Int) × (Nat → Option Nat) × List (Nat × Int)
                  × Finset Nat × Finset Nat) en =>
            let (dists, preds, pq, vE, rE) := acc
            match en.node.bind (nodeOfId g) with
            | none => acc
            | some nbNd =>
              if nbNd.uid ∈ newProcessedNodes then acc
              else
                match g.edges.find? (fun e =>
                    (e.source = currentNode ∧ e.target = nbNd.uid)
                      ∨ (g.isDirected = false ∧ e.source = nbNd.uid ∧ e.target = currentNode)) with
                | none => acc
                | some edge =>
                  let vE := insert edge.id vE
                  match st.distances currentNode with
                  | none => (dists, preds, pq, vE, rE)
                  | some dc =>
                    let newDistance := dc + en.weight
                    if (match st.distances nbNd.uid with
                        | none => true
                        | some dv => decide (newDistance < dv)) then
                      (Function.update dists nbNd.uid (some newDistance),
                       Function.update preds nbNd.uid (some currentNode),
                       pq ++ [(nbNd.uid, newDistance)],
                       vE, insert edge.id rE)
                    else (dists, preds, pq, vE, rE))
          (st.distances, st.predecessors, rest, st.visitedEdges, st.relaxedEdges)
        { st with
          currentNode := some currentNode
          priorityQueue := acc.2.2.1
          distances := acc.1
          predecessors := acc.2.1
          processedNodes := newProcessedNodes
          visitedEdges := acc.2.2.2.1
          relaxedEdges := acc.2.2.2.2
          iterationCount := st.iterationCount + 1 }

/-- `togglePauseDijkstra`: flip `isPaused`; an un-pause with a non-empty
priority queue immediately performs one step. -/
def togglePauseDijkstra (g : Graph) (st : DijkstraState) : DijkstraState :=
  let newState := { st with isPaused := !st.isPaused }
  if newState.isPaused = false ∧ newState.priorityQueue ≠ [] then runDijkstraStep g newState
  else newState

/-! ## Bellman-Ford (`initializeBellmanFord`, `runBellmanFordStep`) -/

/-- The `bellmanFordAnimationState` React state (the display-only
`edgeSequenceDisplay` derived copy is omitted — nothing reads it back). -/
structure BFordState where
  isRunning : Bool
  isPaused : Bool
  visitedNodes : Finset Nat
  visitedEdges : Finset Nat
  currentEdge : Option Nat
  sourceNode : Option Nat
  predecessors : Nat → Option Nat
  distances : Nat → Option Int
  iteration : Nat
  edgeOrder : List Edge
  hasNegativeCycle : Bool
  currentStep : Nat
  anyChanges : Bool
  iterationCount : Nat
  showShortestPaths : Bool

/-- The `useState` initial value of `bellmanFordAnimationState`. -/
def bfordIdle : BFordState where
  isRunning := false
  isPaused := false
  visitedNodes := ∅
  visitedEdges := ∅
  currentEdge := none
  sourceNode := none
  predecessors := fun _ => none
  distances := fun _ => none
  iteration := 0
  edgeOrder := []
  hasNegativeCycle := false
  currentStep := 0
  anyChanges := false
  iterationCount := 0
  showShortestPaths := false

/-- The edge order Bellman-Ford fixes at start: edges sorted by
(source visible id, target visible id) — the JS comparator with
`nodes.find(...)?.id || 0` lookups — and the whole pass repeated
`|V| - 1` times.  The `iteration` tag spread onto each entry is only
used for display and is not modelled. -/
def bfordEdgeSequence (g : Graph) : List Edge :=
  let sortedEdges := stableSort
    (fun a b => visId g a.source < visId g b.source
      ∨ (visId g a.source = visId g b.source ∧ visId g a.target ≤ visId g b.target)) g.edges
  (List.range (g.nodes.length - 1)).flatMap (fun _ => sortedEdges)

/-- `initializeBellmanFord(sourceNodeId)` (the source node is clicked
after `startBellmanFord` has checked directedness); `none` when no node
has that visible id. -/
def setupBellmanFord (g : Graph) (st : BFordState) (sourceNodeId : Nat) : Option BFordState :=
  match nodeOfId g sourceNodeId with
  | none => none
  | some sourceNode => some
    { st with
      isRunning := true
      isPaused := false
      visitedNodes := {sourceNode.uid}
      visitedEdges := ∅
      currentEdge := none
      sourceNode := some sourceNode.uid
      predecessors := fun _ => none
      distances := fun u => if u = sourceNode.uid then some (0 : Int) else none
      iteration := 1
      edgeOrder := bfordEdgeSequence g
      hasNegativeCycle := false
      currentStep := 0
      anyChanges := false }

/-- One `runBellmanFordStep` transition.  Note the source's order of
checks: at a pass boundary with no changes it completes successfully;
otherwise it clears `anyChanges` *in place* and only then runs the
`iteration >= n` completion check, which reads the just-cleared flag. -/
def runBellmanFordStep (g : Graph) (st : BFordState) : BFordState :=
  if st.isPaused then st else
  let n := g.nodes.length
  if st.currentStep % g.edges.length = 0 ∧ st.currentStep > 0 ∧ st.anyChanges = false then
    { st with
      isRunning := false
      hasNegativeCycle := false
      currentEdge := none
      iterationCount := st.currentStep / g.edges.length
      showShortestPaths := true }
  else
  let st := if st.currentStep % g.edges.length = 0 ∧ st.currentStep > 0
            then { st with anyChanges := false } else st
  if st.iteration ≥ n then
    { st with
      isRunning := false
      hasNegativeCycle := st.anyChanges
      currentEdge := none
      iterationCount := n }
  else
    match st.edgeOrder[st.currentStep % st.edgeOrder.length]? with
    | none => st
    | some edge =>
      let newDistance := (st.distances edge.source).map (· + edge.weight)
      let doRelax :=
        match newDistance, st.distances edge.target with
        | none, _ => false
        | some _, none => true
        | some x, some y => decide (x < y)
      let newDistances :=
        if doRelax then Function.update st.distances edge.target newDistance else st.distances
      let newPredecessors :=
        if doRelax then Function.update st.predecessors edge.target (some edge.source)
        else st.predecessors
      let nextStep := st.currentStep + 1
      { st with
        currentEdge := some edge.id
        currentStep := nextStep
        iteration := nextStep / st.edgeOrder.length + 1
        distances := newDistances
        predecessors := newPredecessors
        anyChanges := st.anyChanges || doRelax
        iterationCount := nextStep / g.edges.length }

/-- The `runBellmanFordStep` driving loop: keep stepping while not paused
and still running. -/
def bfordLoop (g : Graph) : Nat → BFordState → BFordState
  | 0, st => st
  | fuel + 1, st =>
    let st := runBellmanFordStep g st
    if st.isPaused = false ∧ st.isRunning = true then bfordLoop g fuel st else st

/-! ## Topological sort via timed DFS (`startTimedDFS`, `runTimedDFSStep`,
`getTopologicalSort`) -/

/-- The `timedDfsAnimationState` React state.  The stack is kept with its
top at the END of the list, as in the JS array (`push`/`slice(0, -1)`).
`finishTimes` is an association list in key-insertion order, because
`getTopologicalSort` enumerates it with `Object.entries` (the keys are
non-numeric `uniqueId` strings, so the object preserves insertion
order); a node is finished at most once, so append + first-match lookup
agrees with the JS object. -/
structure TDFSState where
  isRunning : Bool
  isPaused : Bool
  visitedNodes : Finset Nat
  visitedEdges : Finset Nat
  stack : List Nat
  currentNode : Option Nat
  sourceNode : Option Nat
  predecessors : Nat → Option Nat
  distances : Nat → Option Nat
  startTimes : Nat → Option Nat
  finishTimes : List (Nat × Nat)
  time : Nat
  hasBackEdge : Bool
  remainingNodes : List Nat

/-- The `useState` initial value of `timedDfsAnimationState`. -/
def tdfsIdle : TDFSState where
  isRunning := false
  isPaused := false
  visitedNodes := ∅
  visitedEdges := ∅
  stack := []
  currentNode := none
  sourceNode := none
  predecessors := fun _ => none
  distances := fun _ => none
  startTimes := fun _ => none
  finishTimes := []
  time := 0
  hasBackEdge := false
  remainingNodes := []

/-- Deduplicate keeping first occurrences — `new Set(list)` iteration
order. -/
def dedupFirst : List Nat → List Nat
  | [] => []
  | x :: xs => x :: (dedupFirst xs).filter (· ≠ x)

/-- `startTimedDFS(sourceNodeId)`; `none` models the early returns. -/
def startTimedDFS (g : Graph) (st : TDFSState) (sourceNodeId : Nat) : Option TDFSState :=
  if st.isRunning then none else
  match nodeOfId g sourceNodeId with
  | none => none
  | some sourceNode => some
    { st with
      isRunning := true
      isPaused := false
      visitedNodes := {sourceNode.uid}
      visitedEdges := ∅
      stack := [sourceNode.uid]
      currentNode := some sourceNode.uid
      sourceNode := some sourceNode.uid
      predecessors := fun _ => none
      distances := fun u => if u = sourceNode.uid then some 0 else none
      startTimes := fun u => if u = sourceNode.uid then some 1 else none
      finishTimes := []
      time := 1
      hasBackEdge := false
      remainingNodes := dedupFirst ((g.nodes.map (fun n => n.uid)).filter (· ≠ sourceNode.uid)) }

/-- All (resolvable) neighbors of the current node as node objects —
`allNeighbors` in `runTimedDFSStep`, before the visited filter. -/
def tdfsAllNeighbors (g : Graph) (curNd : Node) : List Node :=
  (adjacencyList g curNd.id).filterMap (fun en => en.node.bind (nodeOfId g))

/-- The back-edge test of `runTimedDFSStep` at the node `curNd`: a
neighbor that is visited, still on the stack and has no finish time yet
(finish times start at 2, so the JS falsiness test is `isNone`).  Only
checked on directed graphs. -/
def tdfsFindsBackEdge (g : Graph) (st : TDFSState) (curNd : Node) : Bool :=
  g.isDirected && (tdfsAllNeighbors g curNd).any (fun nb =>
    decide (nb.uid ∈ st.visitedNodes) && decide (nb.uid ∈ st.stack)
      && (st.finishTimes.lookup nb.uid).isNone)

/-- Sort key for restarting on the lowest-id remaining node:
`node ? node.id : Infinity`, `none` standing for `Infinity`. -/
def tdfsRestartLe (g : Graph) (a b : Nat) : Bool :=
  match (nodeOfUid g a).map (fun n => n.id), (nodeOfUid g b).map (fun n => n.id) with
  | _, none => true
  | none, some _ => false
  | some x, some y => decide (x ≤ y)

/-- One `runTimedDFSStep` transition. -/
def runTimedDFSStep (g : Graph) (st : TDFSState) : TDFSState :=
  if st.isPaused then st else
  if st.stack = [] ∧ st.remainingNodes ≠ [] then
    match stableSort (tdfsRestartLe g) st.remainingNodes with
    | [] => st
    | nextStartNode :: _ =>
      let newTime := st.time + 1
      { st with
        stack := [nextStartNode]
        visitedNodes := insert nextStartNode st.visitedNodes
        currentNode := some nextStartNode
        startTimes := Function.update st.startTimes nextStartNode (some newTime)
        time := newTime
        remainingNodes := st.remainingNodes.filter (· ≠ nextStartNode) }
  else if st.stack = [] then { st with isRunning := false }
  else
  match st.stack.getLast? with
  | none => st
  | some currentNode =>
    match nodeOfUid g currentNode with
    | none => st
    | some curNd =>
      let foundBackEdge := st.hasBackEdge || tdfsFindsBackEdge g st curNd
      let neighbors := (tdfsAllNeighbors g curNd).filter
        (fun nd => decide (nd.uid ∉ st.visitedNodes))
      match stableSort (fun a b => a.id ≤ b.id) neighbors with
      | nextNd :: _ =>
        let nextNode := nextNd.uid
        let newTime := st.time + 1
        { st with
          stack := st.stack ++ [nextNode]
          visitedNodes := insert nextNode st.visitedNodes
          currentNode := some nextNode
          startTimes := Function.update st.startTimes nextNode (some newTime)
          time := newTime
          hasBackEdge := foundBackEdge
          remainingNodes := st.remainingNodes.filter (· ≠ nextNode) }
      | [] =>
        let newStack := st.stack.dropLast
        let newTime := st.time + 1
        { st with
          stack := newStack
          currentNode := newStack.getLast?
          finishTimes := st.finishTimes ++ [(currentNode, newTime)]
          time := newTime
          hasBackEdge := foundBackEdge }

/-- The timed-DFS driving loop: step while something is left; once both
the stack and the remaining-node set are empty, clear `isRunning`. -/
def tdfsLoop (g : Graph) : Nat → TDFSState → TDFSState
  | 0, st => st
  | fuel + 1, st =>
    let st := runTimedDFSStep g st
    if st.isPaused = false ∧ (st.stack ≠ [] ∨ st.remainingNodes ≠ []) then tdfsLoop g fuel st
    else if st.stack = [] ∧ st.remainingNodes = [] then { st with isRunning := false }
    else st

/-- `getTopologicalSort(finishTimes)`: entries sorted by finish time
descending, mapped to visible node ids (`nodes.find(...)?.id`). -/
def getTopologicalSort (g : Graph) (finishTimes : List (Nat × Nat)) : List (Option Nat) :=
  (stableSort (fun a b => b.2 ≤ a.2) finishTimes).map
    (fun p => (nodeOfUid g p.1).map (fun n => n.id))

/-- What the result panel reports once a timed-DFS run has finished
(App.js lines 2445-2464): "not applicable" on an undirected graph,
"invalid — cycle detected" when `hasBackEdge`, otherwise the topological
order; the order is rendered only in the valid case. -/
inductive TopoOutcome where
  | notApplicable
  | invalidCycleDetected
  | validOrder (order : List (Option Nat))
deriving DecidableEq, Repr

/-- The reporting decision for a finished timed-DFS run. -/
def topoResult (g : Graph) (st : TDFSState) : TopoOutcome :=
  if g.isDirected = false then .notApplicable
  else if st.hasBackEdge then .invalidCycleDetected
  else .validOrder (getTopologicalSort g st.finishTimes)

/-! ## Prim (`initializePrim`, `runPrimStep`, `togglePausePrim`) -/

/-- The `primAnimationState` React state. -/
structure PrimState where
  isRunning : Bool
  isPaused : Bool
  visitedNodes : Finset Nat
  visitedEdges : Finset Nat
  currentNode : Option Nat
  sourceNode : Option Nat
  priorityQueue : List (Nat × Int)
  processedNodes : Finset Nat
  currentEdge : Option Nat
  mstEdges : Finset Nat
  totalWeight : Int
  iterationCount : Nat
  error : Option String

/-- The `useState` initial value of `primAnimationState` (also what
`resetPrim` writes). -/
def primIdle : PrimState where
  isRunning := false
  isPaused := false
  visitedNodes := ∅
  visitedEdges := ∅
  currentNode := none
  sourceNode := none
  priorityQueue := []
  processedNodes := ∅
  currentEdge := none
  mstEdges := ∅
  totalWeight := 0
  iterationCount := 0
  error := none

/-- The edge lookup shared by Prim's seeding and expansion:
`edges.find(e => (e.source === u && e.target === v) || (!isDirected &&
e.source === v && e.target === u))`. -/
def findEdgeBetween (g : Graph) (u v : Nat) : Option Edge :=
  g.edges.find? (fun e =>
    (e.source = u ∧ e.target = v) ∨ (g.isDirected = false ∧ e.source = v ∧ e.target = u))

/-- `initializePrim(sourceNodeId)`: seed the candidate queue with the
source's adjacency entries, resolved to stored edges.  The source reads
`nodes.find(n => n.uniqueId === sourceNode.uniqueId).id` before indexing
the adjacency list; that find never fails for a live source node (the
`none` arm is unreachable). -/
def setupPrim (g : Graph) (st : PrimState) (sourceNodeId : Nat) : Option PrimState :=
  match nodeOfId g sourceNodeId with
  | none => none
  | some sourceNode =>
    match nodeOfUid g sourceNode.uid with
    | none => none
    | some curNd =>
    let initialPriorityQueue := (adjacencyList g curNd.id).foldl
      (fun pq en =>
        match en.node.bind (nodeOfId g) with
        | none => pq
        | some nbNd =>
          match findEdgeBetween g sourceNode.uid nbNd.uid with
          | none => pq
          | some edge => pq ++ [(edge.id, en.weight)])
      []
    some
      { st with
        isRunning := true
        isPaused := false
        visitedNodes := {sourceNode.uid}
        visitedEdges := ∅
        currentNode := some sourceNode.uid
        sourceNode := some sourceNode.uid
        priorityQueue := initialPriorityQueue
        processedNodes := {sourceNode.uid}
        currentEdge := none
        mstEdges := ∅
        totalWeight := 0
        iterationCount := 0
        error := none }

/-- Prim's candidate ordering: weight first, then the edge's
(source visible id, target visible id); two entries whose edge ids
resolve to no stored edge compare equal (`return 0`). -/
def primQueueLe (g : Graph) (a b : Nat × Int) : Bool :=
  if a.2 ≠ b.2 then a.2 ≤ b.2
  else
    match g.edges.find? (fun e => e.id = a.1), g.edges.find? (fun e => e.id = b.1) with
    | some ae, some be =>
      if visId g ae.source ≠ visId g be.source then visId g ae.source ≤ visId g be.source
      else visId g ae.target ≤ visId g be.target
    | _, _ => true

/-- One `runPrimStep` transition. -/
def runPrimStep (g : Graph) (st : PrimState) : PrimState :=
  if st.isPaused then st else
  if st.priorityQueue = [] then
    if st.processedNodes.card < g.nodes.length then
      { st with
        isRunning := false
        error := some "Graph is disconnected. Cannot construct complete MST." }
    else { st with isRunning := false }
  else
  match stableSort (primQueueLe g) st.priorityQueue with
  | [] => st
  | (currentEdgeId, weight) :: restQ =>
    match g.edges.find? (fun e => e.id = currentEdgeId) with
    | none => st
    | some currentEdge =>
      let sourceInMST := currentEdge.source ∈ st.processedNodes
      let targetInMST := currentEdge.target ∈ st.processedNodes
      if sourceInMST ∧ targetInMST then
        { st with priorityQueue := restQ }
      else
        let newNode := if sourceInMST then currentEdge.target else currentEdge.source
        let newMSTEdges := insert currentEdgeId st.mstEdges
        let newProcessedNodes := insert newNode st.processedNodes
        let newPriorityQueue :=
          match nodeOfUid g newNode with
          | none => restQ
          | some newNd =>
            (stableSort (fun a b => a.node.getD 0 ≤ b.node.getD 0) (adjacencyList g newNd.id)).foldl
              (fun pq en =>
                match en.node.bind (nodeOfId g) with
                | none => pq
                | some nbNd =>
                  if nbNd.uid ∈ newProcessedNodes then pq
                  else
                    match findEdgeBetween g newNode nbNd.uid with
                    | none => pq
                    | some edge =>
                      if pq.any (fun p => p.1 = edge.id) then pq
                      else pq ++ [(edge.id, en.weight)])
              restQ
        { st with
          currentNode := some newNode
          priorityQueue := newPriorityQueue
          processedNodes := newProcessedNodes
          visitedEdges := insert currentEdgeId st.visitedEdges
          mstEdges := newMSTEdges
          totalWeight := st.totalWeight + weight
          currentEdge := some currentEdgeId
          iterationCount := st.iterationCount + 1 }

/-- The `runPrimStep` driving loop: step while running and not all nodes
are processed; once all are processed, clear `isRunning`. -/
def primLoop (g : Graph) : Nat → PrimState → PrimState
  | 0, st => st
  | fuel + 1, st =>
    let st := runPrimStep g st
    if st.isPaused = false ∧ st.isRunning = true ∧ st.processedNodes.card < g.nodes.length then
      primLoop g fuel st
    else if st.processedNodes.card = g.nodes.length then { st with isRunning := false }
    else st

/-! ## Disjoint set (`class DisjointSet`) and Kruskal (`startKruskal`,
`runKruskalStep`) -/

/-- The `DisjointSet` maps.  `keys` is the `Map` key list in insertion
order; `parent`/`rank` are total functions whose values are only
meaningful on `keys`.  Path compression is not modelled: it rewires
parent pointers inside one tree but never changes any root, and only
roots (via `find`), the key set and ranks are observable through
`inSameSet`, `union` and `getComponents`. -/
structure DSU where
  keys : List Nat
  parent : Nat → Nat
  rank : Nat → Nat

/-- A fresh `new DisjointSet()`. -/
def dsuEmpty : DSU where
  keys := []
  parent := fun x => x
  rank := fun _ => 0

/-- `makeSet(x)`: (re)roots `x` with rank 0; a `Map` keeps one key per
value, in first-insertion order. -/
def dsuMakeSet (d : DSU) (x : Nat) : DSU where
  keys := if x ∈ d.keys then d.keys else d.keys ++ [x]
  parent := Function.update d.parent x x
  rank := Function.update d.rank x 0

/-- Parent-chain walk with fuel; union-by-rank keeps every chain shorter
than the number of keys, so the fuel used by `dsuFind` never runs out on
states the embedded code builds. -/
def dsuRootAux (p : Nat → Nat) : Nat → Nat → Nat
  | 0, x => x
  | fuel + 1, x => if p x = x then x else dsuRootAux p fuel (p x)

/-- `find(x)`: a missing key is `makeSet` on the fly, then the root of
`x`'s parent chain is returned (compression omitted, see `DSU`). -/
def dsuFind (d : DSU) (x : Nat) : DSU × Nat :=
  let d := if x ∈ d.keys then d else dsuMakeSet d x
  (d, dsuRootAux d.parent d.keys.length x)

/-- `union(x, y)` with union by rank (the returned boolean of the JS
method is unused by its callers). -/
def dsuUnion (d : DSU) (x y : Nat) : DSU :=
  let (d, rootX) := dsuFind d x
  let (d, rootY) := dsuFind d y
  if rootX ≠ rootY then
    if d.rank rootX < d.rank rootY then { d with parent := Function.update d.parent rootX rootY }
    else if d.rank rootX > d.rank rootY then
      { d with parent := Function.update d.parent rootY rootX }
    else
      { d with
        parent := Function.update d.parent rootY rootX
        rank := Function.update d.rank rootX (d.rank rootX + 1) }
  else d

/-- `inSameSet(x, y)`; threads the (possibly key-extended) structure. -/
def dsuInSameSet (d : DSU) (x y : Nat) : DSU × Bool :=
  let (d, rootX) := dsuFind d x
  let (d, rootY) := dsuFind d y
  (d, rootX = rootY)

/-- `getComponents()`: component numbers are assigned to roots in
first-seen key order; returns the node-to-component map and the count. -/
def dsuGetComponents (d : DSU) : (Nat → Option Nat) × Nat :=
  let componentRoots := dedupFirst (d.keys.map (fun x => (dsuFind d x).2))
  (fun x => if x ∈ d.keys then componentRoots.findIdx? (· = (dsuFind d x).2) else none,
   componentRoots.length)

/-- The `kruskalAnimationState` React state (the `visitedNodes` set is
created empty and never filled by the Kruskal code). -/
structure KruskalState where
  isRunning : Bool
  isPaused : Bool
  isComplete : Bool
  visitedNodes : Finset Nat
  visitedEdges : Finset Nat
  currentEdge : Option Nat
  mstEdges : Finset Nat
  totalWeight : Int
  edgesProcessed : Nat
  sortedEdges : List Edge
  currentStep : Nat
  components : Nat → Option Nat
  numComponents : Nat
  error : Option String

/-- The `useState` initial value of `kruskalAnimationState`. -/
def kruskalIdle : KruskalState where
  isRunning := false
  isPaused := false
  isComplete := false
  visitedNodes := ∅
  visitedEdges := ∅
  currentEdge := none
  mstEdges := ∅
  totalWeight := 0
  edgesProcessed := 0
  sortedEdges := []
  currentStep := 0
  components := fun _ => none
  numComponents := 0
  error := none

/-- Kruskal's fixed edge order: weight first, then the unordered pair of
endpoint visible ids (smaller id, then larger id). -/
def kruskalEdgeLe (g : Graph) (a b : Edge) : Bool :=
  if a.weight ≠ b.weight then a.weight ≤ b.weight
  else
    let aMin := min (visId g a.source) (visId g a.target)
    let aMax := max (visId g a.source) (visId g a.target)
    let bMin := min (visId g b.source) (visId g b.target)
    let bMax := max (visId g b.source) (visId g b.target)
    if aMin ≠ bMin then aMin ≤ bMin else aMax ≤ bMax

/-- `startKruskal()`: `none` models the early returns (already running,
unweighted, or directed — each shows an `alert` and starts nothing);
otherwise the disjoint set over all nodes and the initial run state. -/
def startKruskal (g : Graph) (st : KruskalState) : Option (DSU × KruskalState) :=
  if st.isRunning then none
  else if g.isWeighted = false then none
  else if g.isDirected = true then none
  else
    let dsu := g.nodes.foldl (fun d n => dsuMakeSet d n.uid) dsuEmpty
    let sortedEdges := stableSort (kruskalEdgeLe g) g.edges
    let comps := dsuGetComponents dsu
    some (dsu,
      { st with
        isRunning := true
        isPaused := false
        isComplete := false
        visitedNodes := ∅
        visitedEdges := ∅
        currentEdge := none
        mstEdges := ∅
        totalWeight := 0
        edgesProcessed := 0
        sortedEdges := sortedEdges
        currentStep := 0
        components := comps.1
        numComponents := comps.2
        error := none })

/-- One `runKruskalStep` transition; the mutable `dsu` argument of the JS
function is threaded explicitly. -/
def runKruskalStep (g : Graph) (d : DSU) (st : KruskalState) : DSU × KruskalState :=
  if st.isPaused ∨ st.currentStep ≥ st.sortedEdges.length then (d, st) else
  match st.sortedEdges[st.currentStep]? with
  | none => (d, st)
  | some currentEdge =>
    let (d, wouldCreateCycle) := dsuInSameSet d currentEdge.source currentEdge.target
    let d := if wouldCreateCycle then d else dsuUnion d currentEdge.source currentEdge.target
    let newMSTEdges := if wouldCreateCycle then st.mstEdges else insert currentEdge.id st.mstEdges
    let newTotalWeight := if wouldCreateCycle then st.totalWeight
                          else st.totalWeight + currentEdge.weight
    let comps := dsuGetComponents d
    (d,
     { st with
       currentEdge := some currentEdge.id
       visitedEdges := insert currentEdge.id st.visitedEdges
       mstEdges := newMSTEdges
       totalWeight := newTotalWeight
       edgesProcessed := st.edgesProcessed + 1
       currentStep := st.currentStep + 1
       components := comps.1
       numComponents := comps.2 })

/-- The completion write of the Kruskal timeout continuation. -/
def kruskalComplete (st : KruskalState) : KruskalState :=
  { st with
    isRunning := false
    isComplete := true
    error := if st.numComponents = 1 then none
             else some "Graph is disconnected. Forest of MSTs generated." }

/-- The `runKruskalStep` driving loop: step while not paused and edges
remain; once the sorted sequence is exhausted, complete. -/
def kruskalLoop (g : Graph) : Nat → DSU → KruskalState → DSU × KruskalState
  | 0, d, st => (d, st)
  | fuel + 1, d, st =>
    let (d, st) := runKruskalStep g d st
    if st.isPaused = false ∧ st.currentStep < st.sortedEdges.length then kruskalLoop g fuel d st
    else if st.currentStep ≥ st.sortedEdges.length then (d, kruskalComplete st)
    else (d, st)

/-! ## Editor operations (`handleNodeClick` add-edge branch,
`handleDirectedToggle`) -/

/-- The slice of editor state the add-edge interaction touches. -/
structure EditorState where
  edges : List Edge
  edgeStart : Option Nat
  highlightedNodes : List Nat
  directedEdgeMemory : Nat → Option (Nat × Nat)
  nextEdgeId : Nat

/-- The duplicate-edge lookup of the add-edge click: an existing edge
between the two selected nodes (either orientation when undirected). -/
def findExistingEdge (isDirected : Bool) (edges : List Edge) (edgeStart uid : Nat) :
    Option Edge :=
  edges.find? (fun e =>
    (e.source = edgeStart ∧ e.target = uid)
      ∨ (isDirected = false ∧ e.source = uid ∧ e.target = edgeStart))

/-- The `add_edge` branch of `handleNodeClick`, clicking the node with
`uniqueId = uid`.  `promptWeight` is the numeric result of the weight
prompt (`none` = the user cancelled).  The transient highlight of the
two endpoints is overwritten by the trailing
`setHighlightedNodes([])`/`setEdgeStart(null)` before the handler
returns, so only the final values appear here. -/
def handleNodeClickAddEdge (isDirected isWeighted : Bool) (promptWeight : Option Int)
    (st : EditorState) (uid : Nat) : EditorState :=
  match st.edgeStart with
  | none => { st with edgeStart := some uid, highlightedNodes := [uid] }
  | some edgeStart =>
    if edgeStart ≠ uid then
      let existingEdge := findExistingEdge isDirected st.edges edgeStart uid
      let st1 :=
        match existingEdge with
        | some _ => st
        | none =>
          let addEdge (w : Int) : EditorState :=
            let newEdge : Edge := { id := st.nextEdgeId, source := edgeStart, target := uid,
                                    weight := w }
            { st with
              edges := st.edges ++ [newEdge]
              nextEdgeId := st.nextEdgeId + 1
              directedEdgeMemory :=
                Function.update st.directedEdgeMemory newEdge.id (some (edgeStart, uid)) }
          if isWeighted then
            match promptWeight with
            | none => st
            | some w => addEdge w
          else addEdge 1
      { st1 with highlightedNodes := [], edgeStart := none }
    else
      { st with highlightedNodes := [], edgeStart := none }

/-- The unordered endpoint key `[edge.source, edge.target].sort().join('-')`:
on the modelled numeric `uniqueId`s, the (min, max) pair — two edges get
the same key exactly when they connect the same unordered pair. -/
def pairKey (e : Edge) : Nat × Nat :=
  (min e.source e.target, max e.source e.target)

/-- The undirected normalization of `handleDirectedToggle(false)`: keep
an edge iff its unordered endpoint key was not seen before (the `seen`
argument carries the keys of the already-kept prefix; the toggle starts
it empty). -/
def dedupUndirected (seen : List (Nat × Nat)) : List Edge → List Edge
  | [] => []
  | e :: rest =>
    if pairKey e ∈ seen then dedupUndirected seen rest
    else e :: dedupUndirected (pairKey e :: seen) rest

/-- `handleDirectedToggle(false)`: switching to undirected keeps, per
unordered endpoint pair, only the first stored edge. -/
def handleDirectedToggleFalse (edges : List Edge) : List Edge :=
  dedupUndirected [] edges

/-- The per-edge restore of `handleDirectedToggle(true)`:
`directedEdgeMemory[edge.id]?.source || edge.source` (and likewise for
the target; `uniqueId` strings are never falsy, so `||` is a pure
missing-entry fallback). -/
def restoreDirection (mem : Nat → Option (Nat × Nat)) (e : Edge) : Edge :=
  { e with
    source := ((mem e.id).map Prod.fst).getD e.source
    target := ((mem e.id).map Prod.snd).getD e.target }

/-- The duplicate filter of `handleDirectedToggle(true)`: keep an edge iff
no earlier edge has the same ordered or swapped endpoint pair
(`index === findIndex(...)`).  `seen` carries the already-scanned
prefix. -/
def dedupDirected (seen : List Edge) : List Edge → List Edge
  | [] => []
  | e :: rest =>
    if seen.any (fun f => (f.source = e.source ∧ f.target = e.target)
        ∨ (f.source = e.target ∧ f.target = e.source)) then
      dedupDirected (seen ++ [e]) rest
    else e :: dedupDirected (seen ++ [e]) rest

/-- `handleDirectedToggle(true)`: restore every edge's original direction
from the memory map, then drop duplicates by unordered endpoint pair,
keeping first occurrences. -/
def handleDirectedToggleTrue (mem : Nat → Option (Nat × Nat)) (edges : List Edge) : List Edge :=
  dedupDirected [] (edges.map (restoreDirection mem))

/-! ## Graph-theoretic notions used to state the claims -/

/-- The neighbor `uniqueId`s a traversal step enumerates from the node
with `uniqueId = u`: the adjacency entries of its visible id, resolved
back to live nodes exactly as the step functions do. -/
def neighborsOfUid (g : Graph) (u : Nat) : List Nat :=
  match nodeOfUid g u with
  | none => []
  | some nd => ((adjacencyList g nd.id).filterMap (fun en => en.node.bind (nodeOfId g))).map
      (fun n => n.uid)

/-- `stepsTo g s k v`: there is a walk of exactly `k` edges from the node
with `uniqueId = s` to the node with `uniqueId = v`, following the same
neighbor enumeration the algorithms use. -/
def stepsTo (g : Graph) (s : Nat) : Nat → Nat → Prop
  | 0 => fun v => v = s
  | k + 1 => fun v => ∃ u, stepsTo g s k u ∧ v ∈ neighborsOfUid g u

/-- `v` is reachable from `s`. -/
def Reachable (g : Graph) (s v : Nat) : Prop :=
  ∃ k, stepsTo g s k v

/-- `d` is the length in edges of a shortest walk from `s` to `v`. -/
def IsShortestDist (g : Graph) (s v d : Nat) : Prop :=
  stepsTo g s d v ∧ ∀ m, stepsTo g s m v → d ≤ m

/-! ## Concrete fixture graphs -/

/-- A directed 2-node path `0 → 1` (uids 100, 101). -/
def gPath2 : Graph where
  nodes := [⟨0, 100⟩, ⟨1, 101⟩]
  edges := [⟨0, 100, 101, 1⟩]
  isDirected := true
  isWeighted := true

/-- An undirected weighted 2-node graph (uids 20, 21). -/
def gUndirected2 : Graph where
  nodes := [⟨0, 20⟩, ⟨1, 21⟩]
  edges := [⟨0, 20, 21, 1⟩]
  isDirected := false
  isWeighted := true

/-- The spec's negative-cycle fixture: `A → B` weight `-1` and `B → A`
weight `-1` on a directed 2-node graph (A has id 0 / uid 30, B id 1 /
uid 31). -/
def gNegCycle2 : Graph where
  nodes := [⟨0, 30⟩, ⟨1, 31⟩]
  edges := [⟨0, 30, 31, -1⟩, ⟨1, 31, 30, -1⟩]
  isDirected := true
  isWeighted := true

/-- The spec's disconnected fixture: two weighted 2-node components
(ids 0-3, uids 40-43), undirected. -/
def gTwoComponents : Graph where
  nodes := [⟨0, 40⟩, ⟨1, 41⟩, ⟨2, 42⟩, ⟨3, 43⟩]
  edges := [⟨0, 40, 41, 1⟩, ⟨1, 42, 43, 1⟩]
  isDirected := false
  isWeighted := true

/-- The spec's cycle-rejection fixture: the directed 3-cycle
`A → B → C → A` (ids 0-2, uids 50-52). -/
def gTriangle : Graph where
  nodes := [⟨0, 50⟩, ⟨1, 51⟩, ⟨2, 52⟩]
  edges := [⟨0, 50, 51, 1⟩, ⟨1, 51, 52, 1⟩, ⟨2, 52, 50, 1⟩]
  isDirected := true
  isWeighted := true

/-! ## C3 — Dijkstra precondition handling -/

/-- C3 counterexample.  On an undirected graph `startDijkstra` does not
transition the run state to any `Failed` phase carrying a reason: it
returns the idle run state completely unchanged (the rejection only
surfaces as a UI `alert`).  The run-state type has no phase or error
field that the guard could set. -/
theorem startDijkstra_no_failed_phase_cex :
    (startDijkstra gUndirected2 dijkstraIdle).1 = dijkstraIdle ∧
    (startDijkstra gUndirected2 dijkstraIdle).2 = DijkstraStartOutcome.rejectedUndirected ∧
    (startDijkstra gUndirected2 dijkstraIdle).1.isRunning = false :=
  ⟨rfl, rfl, rfl⟩

/-- C3 (amended): starting Dijkstra on an undirected graph, or on a graph
with a negative edge weight, performs no algorithm steps and never
throws — the guard returns before any run state is initialized, leaving
the Dijkstra run state unchanged, and reports the violated precondition
only through a UI alert (no `Failed` phase or reason is recorded in the
run state). -/
theorem startDijkstra_rejects_unchanged (g : Graph) (st : DijkstraState)
    (hrun : st.isRunning = false)
    (hbad : g.isDirected = false ∨ ∃ e ∈ g.edges, e.weight < 0) :
    (startDijkstra g st).1 = st ∧
    (startDijkstra g st).2 ≠ DijkstraStartOutcome.promptForSource ∧
    (g.isDirected = false → (startDijkstra g st).2 = DijkstraStartOutcome.rejectedUndirected) ∧
    (g.isDirected = true → (startDijkstra g st).2 = DijkstraStartOutcome.rejectedNegativeWeights) := by
  rcases hbad with hundir | ⟨e, he, hw⟩
  · refine ⟨?_, ?_, ?_, ?_⟩ <;> simp [startDijkstra, hrun, hundir]
  · by_cases hdir : g.isDirected = false
    · refine ⟨?_, ?_, ?_, ?_⟩ <;> simp [startDijkstra, hrun, hdir]
    · have hany : g.edges.any (fun e => e.weight < 0) = true :=
        List.any_eq_true.mpr ⟨e, he, by simpa using hw⟩
      refine ⟨?_, ?_, ?_, ?_⟩ <;> simp [startDijkstra, hrun, hdir, hany]

/-- C3 witness: the amended theorem applied to the concrete undirected
2-node graph. -/
theorem startDijkstra_rejects_unchanged_witness :
    (startDijkstra gUndirected2 dijkstraIdle).1 = dijkstraIdle ∧
    (startDijkstra gUndirected2 dijkstraIdle).2 ≠ DijkstraStartOutcome.promptForSource :=
  ⟨(startDijkstra_rejects_unchanged gUndirected2 dijkstraIdle rfl (Or.inl rfl)).1,
   (startDijkstra_rejects_unchanged gUndirected2 dijkstraIdle rfl (Or.inl rfl)).2.1⟩

/-! ## C4 — pause/resume behavior -/

/-- The BFS run state right after `startBFS(0)` on `gPath2`: running,
un-paused, queue `[100]`. -/
def stPath2Run : BFSState := (startBFS gPath2 bfsIdle 0).getD bfsIdle

/-- C4 counterexample.  Pause is implemented as a toggle
(`togglePauseBFS`), so invoking the pause control twice on a running,
un-paused BFS run does NOT leave the phase `Paused`: the second call
un-pauses again (`isPaused = false`, i.e. the phase is `Running`, where
the claim requires `Paused`). -/
theorem pause_twice_not_paused_cex :
    stPath2Run.isPaused = false ∧ stPath2Run.queue ≠ [] ∧
    (togglePauseBFS gPath2 (togglePauseBFS gPath2 stPath2Run)).isPaused = false := by
  refine ⟨rfl, by decide, ?_⟩
  rfl

/-- C4 (amended): the pause control of every run is a toggle, not an
idempotent pause.  From an un-paused state one call pauses and changes
nothing else; the second call un-pauses and immediately performs exactly
one step (the resume half of the claim: un-pausing advances one step
before the next scheduled tick).  Stated for the BFS and Dijkstra
controls the claim cites; stepping an empty frontier is the identity, so
the double toggle is exactly one step application in every case. -/
theorem pause_toggle_behavior (g : Graph) (stB : BFSState) (stD : DijkstraState)
    (hB : stB.isPaused = false) (hD : stD.isPaused = false) :
    togglePauseBFS g stB = { stB with isPaused := true } ∧
    togglePauseBFS g (togglePauseBFS g stB) = runBFSStep g stB ∧
    togglePauseDijkstra g stD = { stD with isPaused := true } ∧
    togglePauseDijkstra g (togglePauseDijkstra g stD) = runDijkstraStep g stD := by
  have h1 : togglePauseBFS g stB = { stB with isPaused := true } := by
    simp [togglePauseBFS, hB]
  have h3 : togglePauseDijkstra g stD = { stD with isPaused := true } := by
    simp [togglePauseDijkstra, hD]
  refine ⟨h1, ?_, h3, ?_⟩
  · rw [h1]
    obtain ⟨r, p, vn, ve, q, c, s, pr, d⟩ := stB
    simp only at hB
    subst hB
    by_cases hq : q = []
    · subst hq
      simp [togglePauseBFS, runBFSStep]
    · simp [togglePauseBFS, hq]
  · rw [h3]
    obtain ⟨r, p, vn, ve, c, s, pr, d, pq, pn, ce, re, ic⟩ := stD
    simp only at hD
    subst hD
    by_cases hq : pq = []
    · subst hq
      simp [togglePauseDijkstra, runDijkstraStep]
    · simp [togglePauseDijkstra, hq]

/-- C4 witness: the toggle behavior applied to the concrete running BFS
state on `gPath2` and the idle Dijkstra state. -/
theorem pause_toggle_behavior_witness :
    togglePauseBFS gPath2 stPath2Run = { stPath2Run with isPaused := true } ∧
    togglePauseBFS gPath2 (togglePauseBFS gPath2 stPath2Run) = runBFSStep gPath2 stPath2Run :=
  ⟨(pause_toggle_behavior gPath2 stPath2Run dijkstraIdle rfl rfl).1,
   (pause_toggle_behavior gPath2 stPath2Run dijkstraIdle rfl rfl).2.1⟩

/-! ## C9 — no self-loops through the node-click interface -/

/-- The edge list after an add-edge click either is unchanged or gains
exactly one edge from the previously selected node to the clicked one,
with distinct endpoints. -/
theorem handleNodeClickAddEdge_edges (dir wt : Bool) (pr : Option Int)
    (st : EditorState) (u : Nat) :
    (handleNodeClickAddEdge dir wt pr st u).edges = st.edges ∨
    ∃ es w, st.edgeStart = some es ∧ es ≠ u ∧
      (handleNodeClickAddEdge dir wt pr st u).edges
        = st.edges ++ [⟨st.nextEdgeId, es, u, w⟩] := by
  unfold handleNodeClickAddEdge
  rcases hstart : st.edgeStart with _ | es
  · left; rfl
  · by_cases heq : es = u
    · subst heq
      simp
    · simp only [ne_eq, heq, not_false_iff, if_true]
      rcases hex : findExistingEdge dir st.edges es u with _ | f
      · simp only [hex]
        by_cases hwt : wt = true
        · rcases pr with _ | w
          · simp [hwt]
          · right
            exact ⟨es, w, rfl, heq, by simp [hwt]⟩
        · simp only [Bool.not_eq_true] at hwt
          right
          exact ⟨es, 1, rfl, heq, by simp [hwt]⟩
      · simp [hex]

/-- C9: clicking the already-selected node as the second endpoint creates
no edge — the handler only clears the selection, leaving the edge set
unchanged — and consequently the add-edge interaction preserves the
invariant that no stored edge has its source equal to its target. -/
theorem node_click_no_self_loop :
    (∀ (dir wt : Bool) (pr : Option Int) (st : EditorState) (u : Nat),
      st.edgeStart = some u →
      handleNodeClickAddEdge dir wt pr st u
        = { st with highlightedNodes := [], edgeStart := none }) ∧
    (∀ (dir wt : Bool) (pr : Option Int) (st : EditorState) (u : Nat),
      (∀ e ∈ st.edges, e.source ≠ e.target) →
      ∀ e ∈ (handleNodeClickAddEdge dir wt pr st u).edges, e.source ≠ e.target) := by
  constructor
  · intro dir wt pr st u hstart
    simp [handleNodeClickAddEdge, hstart]
  · intro dir wt pr st u hinv e he
    rcases handleNodeClickAddEdge_edges dir wt pr st u with hsame | ⟨es, w, _, hne, hadd⟩
    · rw [hsame] at he
      exact hinv e he
    · rw [hadd] at he
      rcases List.mem_append.mp he with he | he
      · exact hinv e he
      · rcases List.mem_singleton.mp he with rfl
        simpa using hne

/-- C9 witness: both parts applied at a concrete editor state (first node
110 selected; clicking 110 again leaves the single stored edge list
unchanged; clicking 111 produces only edges with distinct endpoints). -/
theorem node_click_no_self_loop_witness :
    handleNodeClickAddEdge true true (some 5)
        ⟨[⟨0, 110, 111, 1⟩], some 110, [110], fun _ => none, 1⟩ 110 =
      { edges := [⟨0, 110, 111, 1⟩], edgeStart := none, highlightedNodes := [],
        directedEdgeMemory := fun _ => none, nextEdgeId := 1 } ∧
    ∀ e ∈ (handleNodeClickAddEdge true true (some 5)
        ⟨[⟨0, 110, 111, 1⟩], some 110, [110], fun _ => none, 1⟩ 111).edges,
      e.source ≠ e.target := by
  constructor
  · exact node_click_no_self_loop.1 true true (some 5)
      ⟨[⟨0, 110, 111, 1⟩], some 110, [110], fun _ => none, 1⟩ 110 rfl
  · exact node_click_no_self_loop.2 true true (some 5)
      ⟨[⟨0, 110, 111, 1⟩], some 110, [110], fun _ => none, 1⟩ 111 (by decide)

/-! ## C1 — Bellman-Ford negative-cycle detection -/

/-- The Bellman-Ford run state right after selecting source `A` (id 0) on
the 2-node negative-cycle fixture. -/
def stNegCycleRun : BFordState := (setupBellmanFord gNegCycle2 bfordIdle 0).getD bfordIdle

/-- C1 evaluation at the failing input.  On the 2-node directed graph
with edges `A → B` weight `-1` and `B → A` weight `-1`, the completed
run ends with `hasNegativeCycle = false`, although both tentative
distances have gone negative and the edge `A → B` would still relax in
an additional pass.  The cause is visible in `runBellmanFordStep`: at
the `|V| - 1` pass boundary the source clears `prev.anyChanges` in place
before the `iteration >= n` completion check reads that very flag, so
the completion check always reads `false`. -/
theorem bellmanFord_negCycle_eval :
    (bfordLoop gNegCycle2 10 stNegCycleRun).isRunning = false ∧
    (bfordLoop gNegCycle2 10 stNegCycleRun).hasNegativeCycle = false ∧
    (bfordLoop gNegCycle2 10 stNegCycleRun).distances 30 = some (-2) ∧
    (bfordLoop gNegCycle2 10 stNegCycleRun).distances 31 = some (-1) ∧
    ((bfordLoop gNegCycle2 10 stNegCycleRun).distances 30).getD 0 + (-1)
      < ((bfordLoop gNegCycle2 10 stNegCycleRun).distances 31).getD 0 := by
  refine ⟨rfl, rfl, by decide, by decide, by decide⟩

/-! ## C5 — Prim hard failure on disconnection -/

/-- The Prim run state right after selecting the source node with id 0
(component 1) on the two-component fixture. -/
def stTwoCompPrimRun : PrimState := (setupPrim gTwoComponents primIdle 0).getD primIdle

/-- C5: whenever Prim's candidate frontier is empty while fewer than
`|V|` nodes are processed, the step hard-fails: it stops the run and
attaches the disconnection error, changing nothing else.  In particular,
on the two 2-node components fixture started from a node of the first
component, the driven run ends failed with that error, with only 2 of
the 4 nodes processed and a 1-edge partial MST — never a complete
MST. -/
theorem prim_disconnected_hard_failure :
    (∀ (g : Graph) (st : PrimState), st.isPaused = false → st.priorityQueue = [] →
      st.processedNodes.card < g.nodes.length →
      runPrimStep g st = { st with
        isRunning := false
        error := some "Graph is disconnected. Cannot construct complete MST." }) ∧
    ((primLoop gTwoComponents 10 stTwoCompPrimRun).error
        = some "Graph is disconnected. Cannot construct complete MST." ∧
      (primLoop gTwoComponents 10 stTwoCompPrimRun).isRunning = false ∧
      (primLoop gTwoComponents 10 stTwoCompPrimRun).processedNodes.card = 2 ∧
      gTwoComponents.nodes.length = 4 ∧
      (primLoop gTwoComponents 10 stTwoCompPrimRun).mstEdges.card = 1) := by
  constructor
  · intro g st hp hq hcard
    simp [runPrimStep, hp, hq, hcard]
  · refine ⟨by decide, by decide, by decide, by decide, by decide⟩

/-- C5 witness: the step-level failure applied at the idle Prim state on
the two-component fixture (empty frontier, 0 of 4 nodes processed). -/
theorem prim_disconnected_hard_failure_witness :
    runPrimStep gTwoComponents primIdle = { primIdle with
      isRunning := false
      error := some "Graph is disconnected. Cannot construct complete MST." } :=
  prim_disconnected_hard_failure.1 gTwoComponents primIdle rfl rfl (by decide)

/-! ## C6 — Kruskal always completes, disconnection is advisory -/

/-- A non-final Kruskal step advances the cursor by one and leaves the
pause flag, the sorted sequence and the not-yet-written completion
fields alone. -/
theorem runKruskalStep_advances (g : Graph) (d : DSU) (st : KruskalState)
    (hp : st.isPaused = false) (hlt : st.currentStep < st.sortedEdges.length) :
    (runKruskalStep g d st).2.currentStep = st.currentStep + 1 ∧
    (runKruskalStep g d st).2.sortedEdges = st.sortedEdges ∧
    (runKruskalStep g d st).2.isPaused = false ∧
    (runKruskalStep g d st).2.isRunning = st.isRunning ∧
    (runKruskalStep g d st).2.isComplete = st.isComplete ∧
    (runKruskalStep g d st).2.error = st.error := by
  have hget : st.sortedEdges[st.currentStep]? = some st.sortedEdges[st.currentStep] :=
    List.getElem?_eq_getElem hlt
  rcases h1 : dsuInSameSet d st.sortedEdges[st.currentStep].source
      st.sortedEdges[st.currentStep].target with ⟨d1, cyc⟩
  simp [runKruskalStep, hp, Nat.not_le.mpr hlt, hget, h1]

/-- Driving the Kruskal loop with enough fuel always exhausts the sorted
edge sequence and completes, and the completed state's error is exactly
the advisory disconnection notice when `numComponents ≠ 1`. -/
theorem kruskalLoop_completes (g : Graph) : ∀ (fuel : Nat) (d : DSU) (st : KruskalState),
    st.isPaused = false → st.currentStep ≤ st.sortedEdges.length →
    st.sortedEdges.length - st.currentStep < fuel →
    (kruskalLoop g fuel d st).2.isComplete = true ∧
    (kruskalLoop g fuel d st).2.isRunning = false ∧
    (kruskalLoop g fuel d st).2.currentStep = (kruskalLoop g fuel d st).2.sortedEdges.length ∧
    (kruskalLoop g fuel d st).2.sortedEdges = st.sortedEdges ∧
    (kruskalLoop g fuel d st).2.error
      = (if (kruskalLoop g fuel d st).2.numComponents = 1 then none
         else some "Graph is disconnected. Forest of MSTs generated.") := by
  intro fuel
  induction fuel with
  | zero => intro d st _ _ h; omega
  | succ f ih =>
    intro d st hp hle hfuel
    by_cases hlt : st.currentStep < st.sortedEdges.length
    · obtain ⟨hc, hs, hip, _, _, _⟩ := runKruskalStep_advances g d st hp hlt
      rcases hstep : runKruskalStep g d st with ⟨d1, st1⟩
      rw [hstep] at hc hs hip
      simp only at hc hs hip
      have hslen : st1.sortedEdges.length = st.sortedEdges.length := by rw [hs]
      by_cases hlt1 : st1.currentStep < st1.sortedEdges.length
      · have hloop : kruskalLoop g (f + 1) d st = kruskalLoop g f d1 st1 := by
          simp [kruskalLoop, hstep, hip, hlt1]
        have := ih d1 st1 hip (Nat.le_of_lt hlt1) (by omega)
        rw [hloop]
        exact ⟨this.1, this.2.1, this.2.2.1, by rw [this.2.2.2.1, hs], this.2.2.2.2⟩
      · have hge : st1.currentStep ≥ st1.sortedEdges.length := Nat.le_of_not_lt hlt1
        have hloop : kruskalLoop g (f + 1) d st = (d1, kruskalComplete st1) := by
          simp [kruskalLoop, hstep, hip, hlt1, hge]
        rw [hloop]
        have hcs1 : st1.currentStep = st1.sortedEdges.length := by omega
        refine ⟨rfl, rfl, ?_, ?_, ?_⟩
        · simpa [kruskalComplete] using hcs1
        · simp [kruskalComplete, hs]
        · by_cases hn : st1.numComponents = 1 <;> simp [kruskalComplete, hn]
    · have heq : st.currentStep = st.sortedEdges.length := by omega
      have hstep : runKruskalStep g d st = (d, st) := by
        simp [runKruskalStep, Nat.le_of_eq heq.symm]
      have hloop : kruskalLoop g (f + 1) d st = (d, kruskalComplete st) := by
        simp [kruskalLoop, hstep, hlt, Nat.le_of_eq heq.symm]
      rw [hloop]
      refine ⟨rfl, rfl, ?_, ?_, ?_⟩
      · simpa [kruskalComplete] using heq
      · simp [kruskalComplete]
      · by_cases hn : st.numComponents = 1 <;> simp [kruskalComplete, hn]

/-- C6: a started Kruskal run, driven with enough fuel, always processes
the entire sorted edge sequence and reaches completion — there is no
hard mid-run failure path.  The completed result carries no error
exactly when `numComponents = 1`, and otherwise carries the advisory
disconnection notice while still counting as a completed run. -/
theorem kruskal_always_completes (g : Graph) (d0 : DSU) (st0 : KruskalState)
    (h0 : startKruskal g kruskalIdle = some (d0, st0)) (fuel : Nat)
    (hfuel : g.edges.length < fuel) :
    (kruskalLoop g fuel d0 st0).2.isComplete = true ∧
    (kruskalLoop g fuel d0 st0).2.isRunning = false ∧
    (kruskalLoop g fuel d0 st0).2.currentStep = g.edges.length ∧
    (kruskalLoop g fuel d0 st0).2.sortedEdges.length = g.edges.length ∧
    ((kruskalLoop g fuel d0 st0).2.error = none ↔
      (kruskalLoop g fuel d0 st0).2.numComponents = 1) ∧
    ((kruskalLoop g fuel d0 st0).2.numComponents ≠ 1 →
      (kruskalLoop g fuel d0 st0).2.error
        = some "Graph is disconnected. Forest of MSTs generated.") := by
  by_cases hw : g.isWeighted = false
  · rw [startKruskal, if_neg (by simp [kruskalIdle]), if_pos hw] at h0
    exact absurd h0 (by simp)
  by_cases hd : g.isDirected = true
  · rw [startKruskal, if_neg (by simp [kruskalIdle]), if_neg hw, if_pos hd] at h0
    exact absurd h0 (by simp)
  rw [startKruskal, if_neg (by simp [kruskalIdle]), if_neg hw, if_neg hd,
    Option.some_inj] at h0
  obtain ⟨hd0, hst0⟩ := Prod.ext_iff.mp h0
  have hst0' : ({ kruskalIdle with
      isRunning := true
      isPaused := false
      isComplete := false
      visitedNodes := ∅
      visitedEdges := ∅
      currentEdge := none
      mstEdges := ∅
      totalWeight := 0
      edgesProcessed := 0
      sortedEdges := stableSort (kruskalEdgeLe g) g.edges
      currentStep := 0
      components := (dsuGetComponents
        (g.nodes.foldl (fun d n => dsuMakeSet d n.uid) dsuEmpty)).1
      numComponents := (dsuGetComponents
        (g.nodes.foldl (fun d n => dsuMakeSet d n.uid) dsuEmpty)).2
      error := none } : KruskalState) = st0 := hst0
  have hp : st0.isPaused = false := by rw [← hst0']
  have hcs : st0.currentStep = 0 := by rw [← hst0']
  have hse : st0.sortedEdges = stableSort (kruskalEdgeLe g) g.edges := by rw [← hst0']
  have hlen : st0.sortedEdges.length = g.edges.length := by
    rw [hse, length_stableSort]
  obtain ⟨hA, hB, hC, hD, hE⟩ := kruskalLoop_completes g fuel d0 st0 hp (by omega) (by omega)
  have hlen2 : (kruskalLoop g fuel d0 st0).2.sortedEdges.length = g.edges.length := by
    rw [hD, hlen]
  refine ⟨hA, hB, by rw [hC, hlen2], hlen2, ?_, ?_⟩
  · rw [hE]
    by_cases hn : (kruskalLoop g fuel d0 st0).2.numComponents = 1 <;> simp [hn]
  · intro hn
    rw [hE, if_neg hn]

/-- The Kruskal start on the two-component fixture. -/
def kruskalTwoCompStart : DSU × KruskalState :=
  (startKruskal gTwoComponents kruskalIdle).getD (dsuEmpty, kruskalIdle)

/-- C6 witness: the completion theorem applied to the concrete
disconnected two-component fixture with fuel 3. -/
theorem kruskal_always_completes_witness :
    (kruskalLoop gTwoComponents 3 kruskalTwoCompStart.1 kruskalTwoCompStart.2).2.isComplete
      = true ∧
    ((kruskalLoop gTwoComponents 3 kruskalTwoCompStart.1 kruskalTwoCompStart.2).2.error = none ↔
      (kruskalLoop gTwoComponents 3 kruskalTwoCompStart.1 kruskalTwoCompStart.2).2.numComponents
        = 1) :=
  ⟨(kruskal_always_completes gTwoComponents kruskalTwoCompStart.1 kruskalTwoCompStart.2 rfl 3
      (by decide)).1,
   (kruskal_always_completes gTwoComponents kruskalTwoCompStart.1 kruskalTwoCompStart.2 rfl 3
      (by decide)).2.2.2.2.1⟩

/-! ## C7 — cycle detection in topological DFS -/

/-- The timed-DFS run state right after selecting source `A` (id 0) on
the directed 3-cycle fixture. -/
def stTriangleRun : TDFSState := (startTimedDFS gTriangle tdfsIdle 0).getD tdfsIdle

/-- C7: every timed-DFS step with a current node updates `hasBackEdge`
to exactly `hasBackEdge || (found an edge from the current node to a
visited neighbor that is on the current stack and has no finish time
yet)` — the code's back-edge signal, checked on directed graphs — and on
the directed 3-cycle `A → B → C → A` the completed run has
`hasBackEdge = true`, so the result panel reports "invalid — cycle
detected" and renders no topological order. -/
theorem topo_cycle_detection :
    (∀ (g : Graph) (st : TDFSState) (cur : Nat) (curNd : Node),
      st.isPaused = false → st.stack.getLast? = some cur → nodeOfUid g cur = some curNd →
      (runTimedDFSStep g st).hasBackEdge
        = (st.hasBackEdge || tdfsFindsBackEdge g st curNd)) ∧
    ((tdfsLoop gTriangle 10 stTriangleRun).hasBackEdge = true ∧
      topoResult gTriangle (tdfsLoop gTriangle 10 stTriangleRun)
        = TopoOutcome.invalidCycleDetected ∧
      (tdfsLoop gTriangle 10 stTriangleRun).isRunning = false ∧
      (tdfsLoop gTriangle 10 stTriangleRun).stack = []) := by
  constructor
  · intro g st cur curNd hp hlast hnd
    have hne : st.stack ≠ [] := by
      intro h
      rw [h] at hlast
      simp at hlast
    simp only [runTimedDFSStep, hp, hne, hlast, hnd, Bool.false_eq_true, if_false,
      false_and, ne_eq, not_false_iff]
    split <;> rfl
  · exact ⟨rfl, rfl, rfl, rfl⟩

/-- C7 witness: the step equation applied at the concrete started run on
the 3-cycle (current node `A`, which has no back edge yet). -/
theorem topo_cycle_detection_witness :
    (runTimedDFSStep gTriangle stTriangleRun).hasBackEdge
      = (stTriangleRun.hasBackEdge || tdfsFindsBackEdge gTriangle stTriangleRun ⟨0, 50⟩) :=
  topo_cycle_detection.1 gTriangle stTriangleRun 50 ⟨0, 50⟩ rfl rfl rfl

/-! ## C8 — directed/undirected toggle round-trip -/

/-- Everything the directed-mode duplicate filter keeps comes from its
input list. -/
theorem dedupDirected_subset (l : List Edge) :
    ∀ (seen : List Edge) (e : Edge), e ∈ dedupDirected seen l → e ∈ l := by
  induction l with
  | nil => intro seen e he; simp [dedupDirected] at he
  | cons x rest ih =>
    intro seen e he
    unfold dedupDirected at he
    split at he
    · exact List.mem_cons_of_mem x (ih _ e he)
    · rcases List.mem_cons.mp he with rfl | he
      · exact List.mem_cons_self _ _
      · exact List.mem_cons_of_mem x (ih _ e he)

/-- An edge kept by the undirected normalization has an unseen pair key
and is the FIRST edge of its unordered-pair class in the input list. -/
theorem dedupUndirected_keeps_first (l : List Edge) :
    ∀ (seen : List (Nat × Nat)) (e : Edge), e ∈ dedupUndirected seen l →
    pairKey e ∉ seen ∧ l.find? (fun f => decide (pairKey f = pairKey e)) = some e := by
  induction l with
  | nil => intro seen e he; simp [dedupUndirected] at he
  | cons x rest ih =>
    intro seen e he
    unfold dedupUndirected at he
    split at he
    case isTrue hx =>
      obtain ⟨hnot, hfind⟩ := ih seen e he
      have hxe : ¬ pairKey x = pairKey e := by
        intro hk
        exact hnot (hk ▸ hx)
      refine ⟨hnot, ?_⟩
      rw [List.find?_cons_of_neg _ (by simpa using hxe)]
      exact hfind
    case isFalse hx =>
      rcases List.mem_cons.mp he with rfl | he
      · exact ⟨hx, by rw [List.find?_cons_of_pos _ (by simp)]⟩
      · obtain ⟨hnot, hfind⟩ := ih (pairKey x :: seen) e he
        have hxe : ¬ pairKey x = pairKey e := fun hk => hnot (by simp [hk])
        refine ⟨fun hs => hnot (List.mem_cons_of_mem _ hs), ?_⟩
        rw [List.find?_cons_of_neg _ (by simpa using hxe)]
        exact hfind

/-- Every unordered-pair class with an unseen key survives the
undirected normalization. -/
theorem dedupUndirected_covers (l : List Edge) :
    ∀ (seen : List (Nat × Nat)) (e : Edge), e ∈ l → pairKey e ∉ seen →
    ∃ e2 ∈ dedupUndirected seen l, pairKey e2 = pairKey e := by
  induction l with
  | nil => intro seen e he; simp at he
  | cons x rest ih =>
    intro seen e he hnot
    unfold dedupUndirected
    split
    case isTrue hx =>
      rcases List.mem_cons.mp he with rfl | he
      · exact absurd hx hnot
      · exact ih seen e he hnot
    case isFalse hx =>
      rcases List.mem_cons.mp he with rfl | he
      · exact ⟨e, List.mem_cons_self _ _, rfl⟩
      · by_cases hk : pairKey e = pairKey x
        · exact ⟨x, List.mem_cons_self _ _, hk.symm⟩
        · obtain ⟨e2, he2, hke⟩ := ih (pairKey x :: seen) e he
            (by simp [hnot, fun h => hk h])
          exact ⟨e2, List.mem_cons_of_mem _ he2, hke⟩

/-- C8: toggling directed → undirected → directed restores, for every
edge retained through both toggles, the originally entered source and
target recorded in the original-direction memory map (the edge's id and
weight are those of a stored original edge); and the
directed → undirected toggle keeps, for each unordered endpoint pair,
exactly the first stored edge with that pair. -/
theorem directed_toggle_round_trip :
    (∀ (mem : Nat → Option (Nat × Nat)) (es : List Edge) (e : Edge),
      e ∈ handleDirectedToggleTrue mem (handleDirectedToggleFalse es) →
      (∃ e0 ∈ es, e0.id = e.id ∧ e0.weight = e.weight) ∧
      ∀ s t, mem e.id = some (s, t) → e.source = s ∧ e.target = t) ∧
    (∀ (es : List Edge) (e : Edge), e ∈ handleDirectedToggleFalse es →
      es.find? (fun f => decide (pairKey f = pairKey e)) = some e) ∧
    (∀ (es : List Edge) (e : Edge), e ∈ es →
      ∃ e2 ∈ handleDirectedToggleFalse es, pairKey e2 = pairKey e) := by
  refine ⟨?_, ?_, ?_⟩
  · intro mem es e he
    have he2 : e ∈ (handleDirectedToggleFalse es).map (restoreDirection mem) :=
      dedupDirected_subset _ _ e he
    obtain ⟨e1, he1, hre⟩ := List.mem_map.mp he2
    have he1es : e1 ∈ es :=
      List.mem_of_find?_eq_some (dedupUndirected_keeps_first es [] e1 he1).2
    have hid : e.id = e1.id := by rw [← hre]; rfl
    have hwt : e.weight = e1.weight := by rw [← hre]; rfl
    refine ⟨⟨e1, he1es, hid.symm, hwt.symm⟩, ?_⟩
    intro s t hmem
    rw [hid] at hmem
    rw [← hre]
    simp [restoreDirection, hmem]
  · intro es e he
    exact (dedupUndirected_keeps_first es [] e he).2
  · intro es e he
    exact dedupUndirected_covers es [] e he (by simp)

/-- C8 witness: the round-trip applied at a concrete directed edge list
with two edges on the same unordered pair — the first is kept, and its
recorded original direction is restored. -/
theorem directed_toggle_round_trip_witness :
    (∃ e0 ∈ [(⟨0, 200, 201, 1⟩ : Edge), ⟨1, 201, 200, 2⟩], e0.id = 0 ∧ e0.weight = (1 : Int)) ∧
    ∃ e2 ∈ handleDirectedToggleFalse [(⟨0, 200, 201, 1⟩ : Edge), ⟨1, 201, 200, 2⟩],
      pairKey e2 = pairKey (⟨1, 201, 200, 2⟩ : Edge) := by
  have mem : Nat → Option (Nat × Nat) := fun i =>
    if i = 0 then some (200, 201) else if i = 1 then some (201, 200) else none
  constructor
  · have h := (directed_toggle_round_trip.1
      (fun i => if i = 0 then some (200, 201) else if i = 1 then some (201, 200) else none)
      [⟨0, 200, 201, 1⟩, ⟨1, 201, 200, 2⟩] ⟨0, 200, 201, 1⟩ (by decide)).1
    obtain ⟨e0, he0, hid, hw⟩ := h
    exact ⟨e0, he0, hid, hw⟩
  · exact directed_toggle_round_trip.2.2 [⟨0, 200, 201, 1⟩, ⟨1, 201, 200, 2⟩]
      ⟨1, 201, 200, 2⟩ (by decide)

/-! ## C2 — BFS distance correctness -/

/-- The `uniqueId`s of the live nodes. -/
def uidsOf (g : Graph) : List Nat := g.nodes.map (fun n => n.uid)

/-- A node resolved from an adjacency entry is a live node. -/
theorem resolved_mem_nodes (g : Graph) (i : Nat) (nd : Node)
    (h : nd ∈ (adjacencyList g i).filterMap (fun en => en.node.bind (nodeOfId g))) :
    nd ∈ g.nodes := by
  obtain ⟨en, _, hbind⟩ := List.mem_filterMap.mp h
  obtain ⟨j, _, hfind⟩ := Option.bind_eq_some.mp hbind
  exact List.mem_of_find?_eq_some hfind

/-- A traversal neighbor is a live node's `uniqueId`. -/
theorem neighborsOfUid_mem_nodes (g : Graph) (u w : Nat) (h : w ∈ neighborsOfUid g u) :
    ∃ nd ∈ g.nodes, nd.uid = w := by
  unfold neighborsOfUid at h
  rcases hnd : nodeOfUid g u with _ | nd
  · rw [hnd] at h; simp at h
  · rw [hnd] at h
    obtain ⟨nd2, hmem, rfl⟩ := List.mem_map.mp h
    exact ⟨nd2, resolved_mem_nodes g nd.id nd2 hmem, rfl⟩

/-- Membership in the newly-discovered list of a BFS step: exactly the
unvisited traversal neighbors of the current node. -/
theorem mem_bfsNews (g : Graph) (visited : Finset Nat) (cur : Nat) (curNd : Node)
    (hnd : nodeOfUid g cur = some curNd) (w : Nat) :
    w ∈ bfsNews g visited curNd ↔ w ∈ neighborsOfUid g cur ∧ w ∉ visited := by
  unfold bfsNews bfsNeighborNodes neighborsOfUid
  rw [hnd]
  constructor
  · intro hw
    obtain ⟨nd2, hmem, rfl⟩ := List.mem_map.mp hw
    rw [mem_stableSort] at hmem
    obtain ⟨hmem2, hvis⟩ := List.mem_filter.mp hmem
    refine ⟨List.mem_map.mpr ⟨nd2, hmem2, rfl⟩, by simpa using hvis⟩
  · rintro ⟨hw, hvis⟩
    obtain ⟨nd2, hmem2, rfl⟩ := List.mem_map.mp hw
    refine List.mem_map.mpr ⟨nd2, ?_, rfl⟩
    rw [mem_stableSort]
    exact List.mem_filter.mpr ⟨hmem2, by simpa using hvis⟩

/-- The news list is no longer than the neighbor list. -/
theorem bfsNews_length_le (g : Graph) (visited : Finset Nat) (cur : Nat) (curNd : Node)
    (hnd : nodeOfUid g cur = some curNd) :
    (bfsNews g visited curNd).length ≤ (neighborsOfUid g cur).length := by
  unfold bfsNews bfsNeighborNodes neighborsOfUid
  rw [hnd]
  rw [List.length_map, length_stableSort, List.length_map]
  exact List.length_filter_le _ _

/-- What one non-trivial BFS step does, field by field. -/
theorem runBFSStep_char (g : Graph) (st : BFSState) (cur : Nat) (rest : List Nat) (curNd : Node)
    (hq : st.queue = cur :: rest) (hp : st.isPaused = false)
    (hnd : nodeOfUid g cur = some curNd) :
    (runBFSStep g st).queue = rest ++ bfsNews g st.visitedNodes curNd ∧
    (runBFSStep g st).visitedNodes
      = st.visitedNodes ∪ (bfsNews g st.visitedNodes curNd).toFinset ∧
    (runBFSStep g st).isPaused = false ∧
    (∀ x, (runBFSStep g st).distances x
      = if x ∈ bfsNews g st.visitedNodes curNd then (st.distances cur).map (· + 1)
        else st.distances x) ∧
    (∀ x, (runBFSStep g st).predecessors x
      = if x ∈ bfsNews g st.visitedNodes curNd then some cur else st.predecessors x) := by
  simp only [runBFSStep, hq, hp, List.cons_ne_nil, false_or, if_false, hnd,
    Bool.false_eq_true, or_false]
  refine ⟨True.intro, True.intro, True.intro, ?_, ?_⟩
  · intro x
    exact foldl_update_eval _ x
  · intro x
    exact foldl_update_eval _ x

/-- A BFS step on an empty queue is the identity. -/
theorem runBFSStep_nil (g : Graph) (st : BFSState) (hq : st.queue = []) :
    runBFSStep g st = st := by
  simp [runBFSStep, hq]

/-- The largest neighbor-list length over the live nodes. -/
def maxNbLen (g : Graph) : Nat :=
  (g.nodes.map (fun nd => (neighborsOfUid g nd.uid).length)).foldr max 0

/-- The fuel that always completes a BFS run. -/
def bfsFuel (g : Graph) : Nat := (maxNbLen g + 1) * g.nodes.length + 2

/-- The strictly-decreasing measure of a BFS run. -/
def bfsMeasure (g : Graph) (st : BFSState) : Nat :=
  (maxNbLen g + 1) * ((uidsOf g).toFinset \ st.visitedNodes).card + st.queue.length

theorem mem_le_foldr_max (l : List Nat) (a : Nat) (h : a ∈ l) : a ≤ l.foldr max 0 := by
  induction l with
  | nil => simp at h
  | cons x xs ih =>
    rcases List.mem_cons.mp h with rfl | h
    · exact Nat.le_max_left _ _
    · exact Nat.le_trans (ih h) (Nat.le_max_right _ _)

/-- The loop invariant of a BFS run from the source `uniqueId` `s`:
the queue is a two-level frontier (distances `d` then `d + 1`), every
node at true distance at most `d` is discovered, fully-processed nodes
have all neighbors discovered, every discovered node's recorded distance
is the true shortest distance, and undiscovered nodes still read
`Infinity`. -/
structure BFSInv (g : Graph) (s : Nat) (st : BFSState) : Prop where
  paused : st.isPaused = false
  queue_vis : ∀ u ∈ st.queue, u ∈ st.visitedNodes
  vis_nodes : ∀ u ∈ st.visitedNodes, ∃ nd ∈ g.nodes, nd.uid = u
  src_vis : s ∈ st.visitedNodes
  levels : ∃ d A B, st.queue = A ++ B
    ∧ (∀ a ∈ A, st.distances a = some d)
    ∧ (∀ b ∈ B, st.distances b = some (d + 1))
    ∧ (∀ w m, stepsTo g s m w → m ≤ d → w ∈ st.visitedNodes)
  processed_closed : ∀ v ∈ st.visitedNodes, v ∉ st.queue →
    ∀ w ∈ neighborsOfUid g v, w ∈ st.visitedNodes
  vis_dist : ∀ v ∈ st.visitedNodes, ∃ k, st.distances v = some k ∧ IsShortestDist g s v k
  unvis_dist : ∀ v, v ∉ st.visitedNodes → st.distances v = none

/-- The invariant holds right after `startBFS`. -/
theorem bfsInv_start (g : Graph) (sid : Nat) (st0 : BFSState) (s : Nat)
    (h0 : startBFS g bfsIdle sid = some st0) (hs : st0.sourceNode = some s) :
    BFSInv g s st0 ∧ st0.queue = [s] := by
  unfold startBFS at h0
  rw [if_neg (by simp [bfsIdle])] at h0
  rcases hfind : nodeOfId g sid with _ | nd
  · rw [hfind] at h0; exact absurd h0 (by simp)
  · rw [hfind, Option.some_inj] at h0
    have hnd : nd ∈ g.nodes := List.mem_of_find?_eq_some hfind
    subst h0
    simp only at hs
    rw [Option.some_inj] at hs
    subst hs
    refine ⟨⟨rfl, ?_, ?_, ?_, ?_, ?_, ?_, ?_⟩, rfl⟩
    · intro u hu
      simp only at hu ⊢
      simpa using List.mem_singleton.mp hu
    · intro u hu
      simp only at hu
      rw [Finset.mem_singleton] at hu
      exact ⟨nd, hnd, hu.symm⟩
    · simp
    · refine ⟨0, [nd.uid], [], rfl, ?_, ?_, ?_⟩
      · intro a ha
        rw [List.mem_singleton] at ha
        subst ha
        simp
      · intro b hb
        simp at hb
      · intro w m hsteps hm
        interval_cases m
        have hw : w = nd.uid := hsteps
        simp [hw]
    · intro v hv hvq w _
      simp only at hv hvq
      rw [Finset.mem_singleton] at hv
      exact absurd (by simp [hv]) hvq
    · intro v hv
      simp only at hv ⊢
      rw [Finset.mem_singleton] at hv
      subst hv
      refine ⟨0, by simp, ?_, ?_⟩
      · rfl
      · intro m _
        exact Nat.zero_le m
    · intro v hv
      simp only at hv ⊢
      rw [Finset.mem_singleton] at hv
      rw [if_neg hv]

/-- With a non-empty queue, the two-level split can be taken with the
queue head in the front level: its distance is the front level `d`, the
rest splits into the remaining `d`-level and the `d + 1`-level, and
every node at true distance at most `d` is already discovered. -/
theorem bfsInv_levels_head (g : Graph) (s : Nat) (st : BFSState) (inv : BFSInv g s st)
    (cur : Nat) (rest : List Nat) (hq : st.queue = cur :: rest) :
    ∃ d A2 B, rest = A2 ++ B ∧ st.distances cur = some d
      ∧ (∀ a ∈ A2, st.distances a = some d)
      ∧ (∀ b ∈ B, st.distances b = some (d + 1))
      ∧ (∀ w m, stepsTo g s m w → m ≤ d → w ∈ st.visitedNodes) := by
  obtain ⟨d, A, B, hAB, hA, hB, hcl⟩ := inv.levels
  rcases A with _ | ⟨a, A2⟩
  · -- the front level is exhausted: shift to level `d + 1`
    rw [hq, List.nil_append] at hAB
    have hcl1 : ∀ w m, stepsTo g s m w → m ≤ d + 1 → w ∈ st.visitedNodes := by
      intro w m hsteps hm
      rcases Nat.lt_or_ge m (d + 1) with hlt | hge
      · exact hcl w m hsteps (by omega)
      · have hmeq : m = d + 1 := by omega
        subst hmeq
        obtain ⟨u, hu, hw⟩ := hsteps
        have huv : u ∈ st.visitedNodes := hcl u d hu (Nat.le_refl d)
        have hunq : u ∉ st.queue := by
          intro huq
          rw [hq, hAB] at huq
          have := hB u huq
          obtain ⟨k, hk, hshort⟩ := inv.vis_dist u huv
          rw [this] at hk
          have hk2 : d + 1 = k := Option.some_inj.mp hk
          have hkd : k ≤ d := hshort.2 d hu
          omega
        exact inv.processed_closed u huv hunq w hw
    refine ⟨d + 1, rest, [], by simp, ?_, ?_, by simp, hcl1⟩
    · exact hB cur (by rw [← hAB]; exact List.mem_cons_self _ _)
    · intro x hx
      exact hB x (by rw [← hAB]; exact List.mem_cons_of_mem _ hx)
  · rw [hq] at hAB
    rw [List.cons_append, List.cons.injEq] at hAB
    obtain ⟨rfl, hrest⟩ := hAB
    exact ⟨d, A2, B, hrest, hA cur (List.mem_cons_self _ _),
      fun x hx => hA x (List.mem_cons_of_mem _ hx), hB, hcl⟩

/-- One BFS step preserves the invariant and strictly decreases the
measure. -/
theorem bfsInv_step (g : Graph) (s : Nat) (st : BFSState) (inv : BFSInv g s st)
    (hne : st.queue ≠ []) :
    BFSInv g s (runBFSStep g st) ∧ bfsMeasure g (runBFSStep g st) < bfsMeasure g st := by
  rcases hq : st.queue with _ | ⟨cur, rest⟩
  · exact absurd hq hne
  have hcv : cur ∈ st.visitedNodes :=
    inv.queue_vis cur (by rw [hq]; exact List.mem_cons_self _ _)
  obtain ⟨nd0, hnd0, hnd0u⟩ := inv.vis_nodes cur hcv
  have hsome : (nodeOfUid g cur).isSome := by
    rw [nodeOfUid, List.find?_isSome]
    exact ⟨nd0, hnd0, by simp [hnd0u]⟩
  obtain ⟨curNd, hnd⟩ := Option.isSome_iff_exists.mp hsome
  obtain ⟨d, A2, B, hrest, hdcur, hA2, hB, hcl⟩ := bfsInv_levels_head g s st inv cur rest hq
  obtain ⟨hQ, hV, hP, hD, hPr⟩ := runBFSStep_char g st cur rest curNd hq inv.paused hnd
  have hmemns : ∀ w, w ∈ bfsNews g st.visitedNodes curNd ↔
      w ∈ neighborsOfUid g cur ∧ w ∉ st.visitedNodes :=
    mem_bfsNews g st.visitedNodes cur curNd hnd
  have hdisj : ∀ w ∈ bfsNews g st.visitedNodes curNd, w ∉ st.visitedNodes :=
    fun w hw => ((hmemns w).mp hw).2
  have hnsnodes : ∀ w ∈ bfsNews g st.visitedNodes curNd, ∃ nd ∈ g.nodes, nd.uid = w :=
    fun w hw => neighborsOfUid_mem_nodes g cur w ((hmemns w).mp hw).1
  have hDold : ∀ x ∈ st.visitedNodes, (runBFSStep g st).distances x = st.distances x := by
    intro x hx
    rw [hD x, if_neg (fun hmem => hdisj x hmem hx)]
  have hDnew : ∀ x ∈ bfsNews g st.visitedNodes curNd,
      (runBFSStep g st).distances x = some (d + 1) := by
    intro x hx
    rw [hD x, if_pos hx, hdcur]
    rfl
  have hcur_d : stepsTo g s d cur := by
    obtain ⟨k, hk, hshort⟩ := inv.vis_dist cur hcv
    rw [hdcur] at hk
    have hdk : d = k := Option.some_inj.mp hk
    subst hdk
    exact hshort.1
  have hrest_vis : ∀ u ∈ rest, u ∈ st.visitedNodes := by
    intro u hu
    exact inv.queue_vis u (by rw [hq]; exact List.mem_cons_of_mem _ hu)
  constructor
  · refine ⟨hP, ?_, ?_, ?_, ?_, ?_, ?_, ?_⟩
    · -- queue_vis
      intro u hu
      rw [hQ] at hu
      rw [hV]
      rcases List.mem_append.mp hu with hu | hu
      · exact Finset.mem_union_left _ (hrest_vis u hu)
      · exact Finset.mem_union_right _ (List.mem_toFinset.mpr hu)
    · -- vis_nodes
      intro u hu
      rw [hV] at hu
      rcases Finset.mem_union.mp hu with hu | hu
      · exact inv.vis_nodes u hu
      · exact hnsnodes u (List.mem_toFinset.mp hu)
    · -- src_vis
      rw [hV]
      exact Finset.mem_union_left _ inv.src_vis
    · -- levels
      refine ⟨d, A2, B ++ bfsNews g st.visitedNodes curNd, ?_, ?_, ?_, ?_⟩
      · rw [hQ, hrest, List.append_assoc]
      · intro a ha
        have haq : a ∈ rest := by rw [hrest]; exact List.mem_append_left _ ha
        rw [hDold a (hrest_vis a haq)]
        exact hA2 a ha
      · intro b hb
        rcases List.mem_append.mp hb with hb | hb
        · have hbq : b ∈ rest := by rw [hrest]; exact List.mem_append_right _ hb
          rw [hDold b (hrest_vis b hbq)]
          exact hB b hb
        · exact hDnew b hb
      · intro w m hst hm
        rw [hV]
        exact Finset.mem_union_left _ (hcl w m hst hm)
    · -- processed_closed
      intro v hv hvq w hw
      rw [hV] at hv ⊢
      rcases Finset.mem_union.mp hv with hv | hv
      · by_cases hvc : v = cur
        · subst hvc
          by_cases hwv : w ∈ st.visitedNodes
          · exact Finset.mem_union_left _ hwv
          · exact Finset.mem_union_right _
              (List.mem_toFinset.mpr ((hmemns w).mpr ⟨hw, hwv⟩))
        · have hvrest : v ∉ rest := by
            intro h
            exact hvq (by rw [hQ]; exact List.mem_append_left _ h)
          have hvq0 : v ∉ st.queue := by
            rw [hq]
            intro h
            rcases List.mem_cons.mp h with h | h
            · exact hvc h
            · exact hvrest h
          exact Finset.mem_union_left _ (inv.processed_closed v hv hvq0 w hw)
      · exact absurd (by rw [hQ]; exact List.mem_append_right _ (List.mem_toFinset.mp hv)) hvq
    · -- vis_dist
      intro v hv
      rw [hV] at hv
      rcases Finset.mem_union.mp hv with hv | hv
      · obtain ⟨k, hk, hs2⟩ := inv.vis_dist v hv
        exact ⟨k, by rw [hDold v hv]; exact hk, hs2⟩
      · have hvns := List.mem_toFinset.mp hv
        refine ⟨d + 1, hDnew v hvns, ⟨cur, hcur_d, ((hmemns v).mp hvns).1⟩, ?_⟩
        intro m hm
        by_contra hc
        exact hdisj v hvns (hcl v m hm (by omega))
    · -- unvis_dist
      intro x hx
      rw [hV] at hx
      have hx1 : x ∉ st.visitedNodes ∧ x ∉ (bfsNews g st.visitedNodes curNd).toFinset := by
        constructor
        · exact fun h => hx (Finset.mem_union_left _ h)
        · exact fun h => hx (Finset.mem_union_right _ h)
      rw [hD x, if_neg (fun h => hx1.2 (List.mem_toFinset.mpr h))]
      exact inv.unvis_dist x hx1.1
  · -- measure decrease
    have hnsU : (bfsNews g st.visitedNodes curNd).toFinset
        ⊆ (uidsOf g).toFinset \ st.visitedNodes := by
      intro x hx
      rw [Finset.mem_sdiff]
      have hx' := List.mem_toFinset.mp hx
      obtain ⟨nd, hndm, hndu⟩ := hnsnodes x hx'
      refine ⟨?_, hdisj x hx'⟩
      rw [List.mem_toFinset]
      exact List.mem_map.mpr ⟨nd, hndm, hndu⟩
    have hsdiff : (uidsOf g).toFinset \ (st.visitedNodes ∪ (bfsNews g st.visitedNodes curNd).toFinset)
        = ((uidsOf g).toFinset \ st.visitedNodes) \ (bfsNews g st.visitedNodes curNd).toFinset := by
      ext x
      simp only [Finset.mem_sdiff, Finset.mem_union]
      tauto
    have hcard : ((uidsOf g).toFinset \ (st.visitedNodes ∪ (bfsNews g st.visitedNodes curNd).toFinset)).card
        + (bfsNews g st.visitedNodes curNd).toFinset.card
        = ((uidsOf g).toFinset \ st.visitedNodes).card := by
      rw [hsdiff, Finset.card_sdiff hnsU]
      have hle := Finset.card_le_card hnsU
      omega
    have hklen : (bfsNews g st.visitedNodes curNd).length ≤ maxNbLen g := by
      refine Nat.le_trans (bfsNews_length_le g _ cur curNd hnd) ?_
      exact mem_le_foldr_max _ _ (List.mem_map.mpr ⟨nd0, hnd0, by rw [hnd0u]⟩)
    have hkc : (bfsNews g st.visitedNodes curNd).length
        ≤ (maxNbLen g + 1) * (bfsNews g st.visitedNodes curNd).toFinset.card := by
      rcases eq_or_ne (bfsNews g st.visitedNodes curNd) [] with hnil | hnil
      · simp [hnil]
      · have hc1 : 1 ≤ (bfsNews g st.visitedNodes curNd).toFinset.card :=
          Finset.card_pos.mpr ((List.toFinset_nonempty_iff _).mpr hnil)
        have h2 : (maxNbLen g + 1) * 1
            ≤ (maxNbLen g + 1) * (bfsNews g st.visitedNodes curNd).toFinset.card :=
          Nat.mul_le_mul_left _ hc1
        rw [Nat.mul_one] at h2
        exact Nat.le_trans (Nat.le_trans hklen (Nat.le_succ _)) h2
    unfold bfsMeasure
    rw [hQ, hV, hq, List.length_append, List.length_cons]
    have hexp : (maxNbLen g + 1) * ((uidsOf g).toFinset \ st.visitedNodes).card
        = (maxNbLen g + 1) * ((uidsOf g).toFinset
            \ (st.visitedNodes ∪ (bfsNews g st.visitedNodes curNd).toFinset)).card
          + (maxNbLen g + 1) * (bfsNews g st.visitedNodes curNd).toFinset.card := by
      rw [← Nat.mul_add, hcard]
    rw [hexp]
    have harith : ∀ (q p rl k : Nat), k ≤ p → q + (rl + k) < q + p + (rl + 1) := by
      intro q p rl k hkp
      omega
    exact harith _ _ _ _ hkc

/-- Driving the BFS loop with fuel above the measure empties the queue
and clears `isRunning`, preserving the invariant. -/
theorem bfsLoop_completes (g : Graph) (s : Nat) : ∀ (fuel : Nat) (st : BFSState),
    BFSInv g s st → bfsMeasure g st < fuel →
    ∃ stf, bfsLoop g fuel st = { stf with isRunning := false }
      ∧ BFSInv g s stf ∧ stf.queue = [] := by
  intro fuel
  induction fuel with
  | zero => intro st _ h; omega
  | succ f ih =>
    intro st inv hfuel
    by_cases hq : st.queue = []
    · refine ⟨st, ?_, inv, hq⟩
      have hstep := runBFSStep_nil g st hq
      simp [bfsLoop, hstep, hq]
    · obtain ⟨inv1, hdec⟩ := bfsInv_step g s st inv hq
      by_cases hq1 : (runBFSStep g st).queue = []
      · refine ⟨runBFSStep g st, ?_, inv1, hq1⟩
        simp [bfsLoop, hq1]
      · obtain ⟨stf, hrun, invf, hqf⟩ := ih (runBFSStep g st) inv1 (by omega)
        refine ⟨stf, ?_, invf, hqf⟩
        rw [← hrun]
        simp [bfsLoop, hq1, inv1.paused]

/-- Once the queue is empty, every node reachable from the source has
been discovered. -/
theorem reachable_visited (g : Graph) (s : Nat) (stf : BFSState) (inv : BFSInv g s stf)
    (hq : stf.queue = []) : ∀ (k w : Nat), stepsTo g s k w → w ∈ stf.visitedNodes := by
  intro k
  induction k with
  | zero =>
    intro w hw
    have : w = s := hw
    subst this
    exact inv.src_vis
  | succ n ih =>
    intro w hw
    obtain ⟨u, hu, hnb⟩ := hw
    have huv : u ∈ stf.visitedNodes := ih u hu
    have hunq : u ∉ stf.queue := by rw [hq]; simp
    exact inv.processed_closed u huv hunq w hnb

/-- C2: after a BFS run completes (the queue has emptied and the driving
loop has cleared `isRunning`), every node that is reachable from the
source holds the exact length of a shortest edge path from the source
as its recorded distance, and every unreachable node still reads
`Infinity` (`none`).  Moreover each step writes
`distance[current] + 1` and `predecessor = current` into every newly
discovered neighbor and marks it visited. -/
theorem bfs_distances_correct :
    (∀ (g : Graph) (sid : Nat) (st0 : BFSState) (s : Nat),
      startBFS g bfsIdle sid = some st0 → st0.sourceNode = some s →
      (bfsLoop g (bfsFuel g) st0).queue = [] ∧
      (bfsLoop g (bfsFuel g) st0).isRunning = false ∧
      ∀ v,
        (Reachable g s v →
          ∃ d, (bfsLoop g (bfsFuel g) st0).distances v = some d ∧ IsShortestDist g s v d) ∧
        (¬ Reachable g s v → (bfsLoop g (bfsFuel g) st0).distances v = none)) ∧
    (∀ (g : Graph) (st : BFSState) (cur : Nat) (rest : List Nat) (curNd : Node),
      st.queue = cur :: rest → st.isPaused = false → nodeOfUid g cur = some curNd →
      ∀ w ∈ neighborsOfUid g cur, w ∉ st.visitedNodes →
        (runBFSStep g st).distances w = (st.distances cur).map (· + 1) ∧
        (runBFSStep g st).predecessors w = some cur ∧
        w ∈ (runBFSStep g st).visitedNodes) := by
  constructor
  · intro g sid st0 s h0 hs
    obtain ⟨inv0, hq0⟩ := bfsInv_start g sid st0 s h0 hs
    have hm0 : bfsMeasure g st0 < bfsFuel g := by
      unfold bfsMeasure bfsFuel
      have h1 : ((uidsOf g).toFinset \ st0.visitedNodes).card ≤ g.nodes.length := by
        refine Nat.le_trans (Finset.card_le_card Finset.sdiff_subset) ?_
        refine Nat.le_trans (List.toFinset_card_le _) ?_
        unfold uidsOf
        rw [List.length_map]
      have h2 : st0.queue.length = 1 := by rw [hq0]; rfl
      have h3 : (maxNbLen g + 1) * ((uidsOf g).toFinset \ st0.visitedNodes).card
          ≤ (maxNbLen g + 1) * g.nodes.length := Nat.mul_le_mul_left _ h1
      omega
    obtain ⟨stf, hrun, invf, hqf⟩ := bfsLoop_completes g s (bfsFuel g) st0 inv0 hm0
    rw [hrun]
    have hreach := reachable_visited g s stf invf hqf
    refine ⟨hqf, rfl, ?_⟩
    intro v
    constructor
    · rintro ⟨k, hk⟩
      exact invf.vis_dist v (hreach k v hk)
    · intro hnr
      refine invf.unvis_dist v ?_
      intro hv
      obtain ⟨k, _, hshort⟩ := invf.vis_dist v hv
      exact hnr ⟨k, hshort.1⟩
  · intro g st cur rest curNd hq hp hnd w hnb hwv
    obtain ⟨_, hV, _, hD, hPr⟩ := runBFSStep_char g st cur rest curNd hq hp hnd
    have hw : w ∈ bfsNews g st.visitedNodes curNd :=
      (mem_bfsNews g st.visitedNodes cur curNd hnd w).mpr ⟨hnb, hwv⟩
    refine ⟨?_, ?_, ?_⟩
    · rw [hD w, if_pos hw]
    · rw [hPr w, if_pos hw]
    · rw [hV]
      exact Finset.mem_union_right _ (List.mem_toFinset.mpr hw)

/-- C2 witness: on the directed 2-node path, the completed BFS run from
node 0 records the shortest distance for the reachable node with uid
101, and node 101 is indeed reachable in one step. -/
theorem bfs_distances_correct_witness :
    Reachable gPath2 100 101 ∧
    ∃ d, (bfsLoop gPath2 (bfsFuel gPath2) stPath2Run).distances 101 = some d ∧
      IsShortestDist gPath2 100 101 d := by
  have hreach : Reachable gPath2 100 101 := ⟨1, 100, rfl, by decide⟩
  exact ⟨hreach,
    ((bfs_distances_correct.1 gPath2 0 stPath2Run 100 rfl rfl).2.2 101).1 hreach⟩

/-! ## C10 — MST weight accounting for Kruskal and Prim -/

/-- The stored weight of the edge with the given id (`0` when no such
edge exists — never the case for the ids the algorithms store). -/
def weightOfEdgeId (g : Graph) (id : Nat) : Int :=
  ((g.edges.find? (fun e => e.id = id)).map (fun e => e.weight)).getD 0

/-- The total stored weight of a set of edge ids. -/
def mstWeight (g : Graph) (s : Finset Nat) : Int := s.sum (weightOfEdgeId g)

/-- No two stored edges share an id. -/
def EdgeIdsNodup (g : Graph) : Prop := (g.edges.map (fun e => e.id)).Nodup

/-- A first-match search keyed by an injective projection finds exactly
the member itself. -/
theorem find?_eq_of_mem_nodup {α β : Type} [DecidableEq β] (f : α → β) (l : List α)
    (hnd : (l.map f).Nodup) (x : α) (hx : x ∈ l) :
    l.find? (fun y => f y = f x) = some x := by
  induction l with
  | nil => simp at hx
  | cons a rest ih =>
    rw [List.map_cons, List.nodup_cons] at hnd
    rcases List.mem_cons.mp hx with rfl | hx2
    · exact List.find?_cons_of_pos _ (by simp)
    · have hne : f a ≠ f x := by
        intro h
        exact hnd.1 (h ▸ List.mem_map.mpr ⟨x, hx2, rfl⟩)
      rw [List.find?_cons_of_neg _ (by simpa using hne)]
      exact ih hnd.2 hx2

/-- Under unique edge ids, `weightOfEdgeId` reads back a stored edge's
own weight. -/
theorem weightOfEdgeId_eq (g : Graph) (hno : EdgeIdsNodup g) (e : Edge) (he : e ∈ g.edges) :
    weightOfEdgeId g e.id = e.weight := by
  unfold weightOfEdgeId
  have hno2 : (g.edges.map (fun e => e.id)).Nodup := hno
  rw [find?_eq_of_mem_nodup (fun e => e.id) g.edges hno2 e he]
  rfl

/-- The states a Kruskal run can reach: the start state, any number of
steps (the mutable `dsu` threaded alongside), and the completion
write. -/
inductive KruskalReach (g : Graph) : DSU → KruskalState → Prop where
  | start (d0 : DSU) (st0 : KruskalState) (h : startKruskal g kruskalIdle = some (d0, st0)) :
      KruskalReach g d0 st0
  | step (d : DSU) (st : KruskalState) (h : KruskalReach g d st) :
      KruskalReach g (runKruskalStep g d st).1 (runKruskalStep g d st).2
  | complete (d : DSU) (st : KruskalState) (h : KruskalReach g d st) :
      KruskalReach g d (kruskalComplete st)

/-- The weight-accounting invariant of a Kruskal run: every MST edge id
was taken from an already-processed position of the sorted sequence, the
sorted sequence is a permutation of the stored edges, and `totalWeight`
is the sum of the stored weights of `mstEdges`. -/
def KruskalWeightInv (g : Graph) (st : KruskalState) : Prop :=
  (∀ id ∈ st.mstEdges, ∃ j, j < st.currentStep ∧
    ∃ e, st.sortedEdges[j]? = some e ∧ e.id = id) ∧
  st.sortedEdges.Perm g.edges ∧
  st.totalWeight = mstWeight g st.mstEdges

/-- One Kruskal step preserves the weight invariant, and either leaves
`(mstEdges, totalWeight)` unchanged or adds exactly one fresh edge id
and its stored weight. -/
theorem kruskal_step_weight (g : Graph) (hno : EdgeIdsNodup g) (d : DSU) (st : KruskalState)
    (inv : KruskalWeightInv g st) :
    KruskalWeightInv g (runKruskalStep g d st).2 ∧
    (((runKruskalStep g d st).2.mstEdges = st.mstEdges ∧
      (runKruskalStep g d st).2.totalWeight = st.totalWeight) ∨
     (∃ id, id ∉ st.mstEdges ∧ (runKruskalStep g d st).2.mstEdges = insert id st.mstEdges ∧
      (runKruskalStep g d st).2.totalWeight = st.totalWeight + weightOfEdgeId g id)) := by
  obtain ⟨hmst, hperm, hsum⟩ := inv
  by_cases hgate : st.isPaused = true ∨ st.currentStep ≥ st.sortedEdges.length
  · have hid : runKruskalStep g d st = (d, st) := by
      unfold runKruskalStep
      rcases hgate with h | h
      · rw [if_pos (Or.inl h)]
      · rw [if_pos (Or.inr h)]
    rw [hid]
    exact ⟨⟨hmst, hperm, hsum⟩, Or.inl ⟨rfl, rfl⟩⟩
  · push_neg at hgate
    obtain ⟨hp, hlt⟩ := hgate
    have hget : st.sortedEdges[st.currentStep]? = some st.sortedEdges[st.currentStep] :=
      List.getElem?_eq_getElem hlt
    rcases hpair : dsuInSameSet d st.sortedEdges[st.currentStep].source
        st.sortedEdges[st.currentStep].target with ⟨d1, cyc⟩
    have hstep : (runKruskalStep g d st).2 =
        { st with
          currentEdge := some st.sortedEdges[st.currentStep].id
          visitedEdges := insert st.sortedEdges[st.currentStep].id st.visitedEdges
          mstEdges := if cyc then st.mstEdges
                      else insert st.sortedEdges[st.currentStep].id st.mstEdges
          totalWeight := if cyc then st.totalWeight
                         else st.totalWeight + st.sortedEdges[st.currentStep].weight
          edgesProcessed := st.edgesProcessed + 1
          currentStep := st.currentStep + 1
          components := (dsuGetComponents (if cyc then d1
            else dsuUnion d1 st.sortedEdges[st.currentStep].source
              st.sortedEdges[st.currentStep].target)).1
          numComponents := (dsuGetComponents (if cyc then d1
            else dsuUnion d1 st.sortedEdges[st.currentStep].source
              st.sortedEdges[st.currentStep].target)).2 } := by
      unfold runKruskalStep
      rw [if_neg (by simp [hp, Nat.not_le.mpr hlt]), hget]
      simp only [hpair]
    have hmem : st.sortedEdges[st.currentStep] ∈ g.edges :=
      hperm.mem_iff.mp (List.getElem_mem hlt)
    have hmst1 : ∀ id ∈ st.mstEdges, ∃ j, j < st.currentStep + 1 ∧
        ∃ e, st.sortedEdges[j]? = some e ∧ e.id = id := by
      intro id hid
      obtain ⟨j, hj, e, hje, hei⟩ := hmst id hid
      exact ⟨j, by omega, e, hje, hei⟩
    by_cases hcyc : cyc = true
    · rw [hstep]
      refine ⟨⟨?_, hperm, ?_⟩, Or.inl ⟨by simp [hcyc], by simp [hcyc]⟩⟩
      · simpa [hcyc] using hmst1
      · simpa [hcyc] using hsum
    · rw [Bool.not_eq_true] at hcyc
      have hfresh : st.sortedEdges[st.currentStep].id ∉ st.mstEdges := by
        intro hin
        obtain ⟨j, hj, e, hje, hei⟩ := hmst _ hin
        have hjlt : j < st.sortedEdges.length := by
          by_contra hge
          rw [List.getElem?_eq_none (Nat.le_of_not_lt hge)] at hje
          exact absurd hje (by simp)
        rw [List.getElem?_eq_getElem hjlt] at hje
        have hej : e = st.sortedEdges[j] := (Option.some_inj.mp hje).symm
        have hno2 : (g.edges.map (fun e => e.id)).Nodup := hno
        have hids : (st.sortedEdges.map (fun e => e.id)).Nodup :=
          ((hperm.map (fun e => e.id)).nodup_iff).mpr hno2
        have hnd : st.sortedEdges.Nodup := List.Nodup.of_map _ hids
        have heq : st.sortedEdges[j] = st.sortedEdges[st.currentStep] := by
          refine List.inj_on_of_nodup_map hids (List.getElem_mem hjlt)
            (List.getElem_mem hlt) ?_
          rw [← hej, hei]
        have : j = st.currentStep := (List.Nodup.getElem_inj_iff hnd).mp heq
        omega
      have hw : weightOfEdgeId g st.sortedEdges[st.currentStep].id
          = st.sortedEdges[st.currentStep].weight := weightOfEdgeId_eq g hno _ hmem
      rw [hstep]
      refine ⟨⟨?_, hperm, ?_⟩, Or.inr ⟨st.sortedEdges[st.currentStep].id, hfresh, ?_, ?_⟩⟩
      · simp only [hcyc, Bool.false_eq_true, if_false]
        intro id hid
        rcases Finset.mem_insert.mp hid with rfl | hid2
        · exact ⟨st.currentStep, by omega, st.sortedEdges[st.currentStep], hget, rfl⟩
        · exact hmst1 id hid2
      · simp only [hcyc, Bool.false_eq_true, if_false]
        unfold mstWeight
        rw [Finset.sum_insert hfresh]
        unfold mstWeight at hsum
        rw [hsum, hw]
        ring
      · simp [hcyc]
      · simp only [hcyc, Bool.false_eq_true, if_false]
        rw [hw]

/-- At most one stored edge connects any endpoint pair (same orientation,
or either orientation when undirected) — the graph-store invariant the
duplicate-edge guard of the editor maintains (§3 of the data model). -/
def NoDupEndpointPairs (g : Graph) : Prop :=
  ∀ e1 ∈ g.edges, ∀ e2 ∈ g.edges,
    ((e1.source = e2.source ∧ e1.target = e2.target)
      ∨ (g.isDirected = false ∧ e1.source = e2.target ∧ e1.target = e2.source)) → e1 = e2

/-- The graph-store well-formedness Prim's weight accounting relies on:
distinct visible ids, distinct `uniqueId`s, distinct edge ids, and no
duplicate endpoint pairs. -/
def PrimGraphWF (g : Graph) : Prop :=
  (g.nodes.map (fun n => n.id)).Nodup ∧ (g.nodes.map (fun n => n.uid)).Nodup ∧
  (g.edges.map (fun e => e.id)).Nodup ∧ NoDupEndpointPairs g

/-- A successful `idMapping` lookup comes from a live node. -/
theorem idMapping_some (g : Graph) (u i : Nat) (h : idMapping g u = some i) :
    ∃ nd ∈ g.nodes, nd.uid = u ∧ nd.id = i := by
  unfold idMapping at h
  suffices haux : ∀ (l : List Node) (acc : Option Nat),
      l.foldl (fun acc n => if n.uid = u then some n.id else acc) acc = some i →
      (∃ nd ∈ l, nd.uid = u ∧ nd.id = i) ∨ acc = some i by
    rcases haux g.nodes none h with ⟨nd, hmem, hu, hi⟩ | hnone
    · exact ⟨nd, hmem, hu, hi⟩
    · exact absurd hnone (by simp)
  intro l
  induction l with
  | nil => intro acc h2; right; exact h2
  | cons x rest ih =>
    intro acc h2
    rw [List.foldl_cons] at h2
    rcases ih _ h2 with ⟨nd, hmem, hu, hi⟩ | hacc
    · exact Or.inl ⟨nd, List.mem_cons_of_mem _ hmem, hu, hi⟩
    · by_cases hx : x.uid = u
      · rw [if_pos hx] at hacc
        exact Or.inl ⟨x, List.mem_cons_self _ _, hx, Option.some_inj.mp hacc⟩
      · rw [if_neg hx] at hacc
        exact Or.inr hacc

/-- Every adjacency entry of the list keyed by `i` originates from a
stored edge: forward from an edge whose source maps to `i`, or mirrored
(undirected only) from an edge whose target maps to `i`. -/
theorem adjacencyList_origin (g : Graph) (i : Nat) (en : AdjEntry)
    (hen : en ∈ adjacencyList g i) :
    ∃ e ∈ g.edges,
      (idMapping g e.source = some i ∧ en = ⟨idMapping g e.target, e.weight⟩) ∨
      (g.isDirected = false ∧ idMapping g e.target = some i
        ∧ en = ⟨idMapping g e.source, e.weight⟩) := by
  unfold adjacencyList at hen
  obtain ⟨e, hemem, hin⟩ := List.mem_flatMap.mp hen
  rcases List.mem_append.mp hin with h | h
  · by_cases hc : idMapping g e.source = some i
    · rw [if_pos hc] at h
      rcases List.mem_singleton.mp h with rfl
      exact ⟨e, hemem, Or.inl ⟨hc, rfl⟩⟩
    · rw [if_neg hc] at h
      simp at h
  · by_cases hc : g.isDirected = false ∧ idMapping g e.target = some i
    · rw [if_pos hc] at h
      rcases List.mem_singleton.mp h with rfl
      exact ⟨e, hemem, Or.inr ⟨hc.1, hc.2, rfl⟩⟩
    · rw [if_neg hc] at h
      simp at h

/-- The weight carried by an adjacency entry is the weight of the edge
the step resolves for it: under the store invariants, the edge found by
endpoint lookup IS the edge that generated the entry. -/
theorem findEdgeBetween_weight (g : Graph) (hwf : PrimGraphWF g) (u : Nat) (nd : Node)
    (hnd : nodeOfUid g u = some nd) (en : AdjEntry) (hen : en ∈ adjacencyList g nd.id)
    (nbNd : Node) (hnb : en.node.bind (nodeOfId g) = some nbNd) (f : Edge)
    (hf : findEdgeBetween g u nbNd.uid = some f) :
    f.weight = en.weight := by
  obtain ⟨hids, _, _, hpairs⟩ := hwf
  have hndmem : nd ∈ g.nodes := List.mem_of_find?_eq_some hnd
  have hndu : nd.uid = u := by simpa using List.find?_some hnd
  obtain ⟨e, hemem, hor⟩ := adjacencyList_origin g nd.id en hen
  have hfmem : f ∈ g.edges := List.mem_of_find?_eq_some hf
  have hfp : (f.source = u ∧ f.target = nbNd.uid)
      ∨ (g.isDirected = false ∧ f.source = nbNd.uid ∧ f.target = u) := by
    simpa using List.find?_some hf
  obtain ⟨j, hj, hjn⟩ := Option.bind_eq_some.mp hnb
  have hnbmem : nbNd ∈ g.nodes := List.mem_of_find?_eq_some hjn
  have hnbid : nbNd.id = j := by simpa using List.find?_some hjn
  rcases hor with ⟨hsrc, hen_eq⟩ | ⟨hundir, htgt, hen_eq⟩
  · obtain ⟨n1, hn1m, hn1u, hn1i⟩ := idMapping_some g e.source nd.id hsrc
    have hn1nd : n1 = nd := List.inj_on_of_nodup_map hids hn1m hndmem (by rw [hn1i])
    have hesrc : e.source = u := by rw [← hndu, ← hn1nd, hn1u]
    have henn : en.node = idMapping g e.target := by rw [hen_eq]
    rw [henn] at hj
    obtain ⟨n2, hn2m, hn2u, hn2i⟩ := idMapping_some g e.target j hj
    have hn2nb : n2 = nbNd := List.inj_on_of_nodup_map hids hn2m hnbmem (by rw [hn2i, hnbid])
    have hetgt : e.target = nbNd.uid := by rw [← hn2nb, hn2u]
    have hfe : f = e := by
      rcases hfp with ⟨hfs, hft⟩ | ⟨hdir, hfs, hft⟩
      · exact hpairs f hfmem e hemem (Or.inl ⟨by rw [hfs, hesrc], by rw [hft, hetgt]⟩)
      · exact hpairs f hfmem e hemem (Or.inr ⟨hdir, by rw [hfs, hetgt], by rw [hft, hesrc]⟩)
    rw [hfe, hen_eq]
  · obtain ⟨n1, hn1m, hn1u, hn1i⟩ := idMapping_some g e.target nd.id htgt
    have hn1nd : n1 = nd := List.inj_on_of_nodup_map hids hn1m hndmem (by rw [hn1i])
    have hetgt : e.target = u := by rw [← hndu, ← hn1nd, hn1u]
    have henn : en.node = idMapping g e.source := by rw [hen_eq]
    rw [henn] at hj
    obtain ⟨n2, hn2m, hn2u, hn2i⟩ := idMapping_some g e.source j hj
    have hn2nb : n2 = nbNd := List.inj_on_of_nodup_map hids hn2m hnbmem (by rw [hn2i, hnbid])
    have hesrc : e.source = nbNd.uid := by rw [← hn2nb, hn2u]
    have hfe : f = e := by
      rcases hfp with ⟨hfs, hft⟩ | ⟨hdir, hfs, hft⟩
      · exact hpairs f hfmem e hemem
          (Or.inr ⟨hundir, by rw [hfs, hetgt], by rw [hft, hesrc]⟩)
      · exact hpairs f hfmem e hemem (Or.inl ⟨by rw [hfs, hesrc], by rw [hft, hetgt]⟩)
    rw [hfe, hen_eq]

/-- A well-formed Prim candidate entry: it names a stored edge by id,
carries that edge's weight, and the edge touches the processed set. -/
def PrimPQEntryOK (g : Graph) (proc : Finset Nat) (p : Nat × Int) : Prop :=
  ∃ e ∈ g.edges, e.id = p.1 ∧ e.weight = p.2 ∧ (e.source ∈ proc ∨ e.target ∈ proc)

theorem primPQEntryOK_mono (g : Graph) (proc proc2 : Finset Nat) (hsub : proc ⊆ proc2)
    (p : Nat × Int) (h : PrimPQEntryOK g proc p) : PrimPQEntryOK g proc2 p := by
  obtain ⟨e, hmem, h1, h2, h3⟩ := h
  exact ⟨e, hmem, h1, h2, h3.imp (fun h => hsub h) (fun h => hsub h)⟩

/-- Any entry Prim pushes for a resolved neighbor of a processed node is
well formed. -/
theorem prim_push_ok (g : Graph) (hwf : PrimGraphWF g) (u : Nat) (nd : Node)
    (hnd : nodeOfUid g u = some nd) (proc : Finset Nat) (hu : u ∈ proc)
    (en : AdjEntry) (hen : en ∈ adjacencyList g nd.id) (nbNd : Node)
    (hnb : en.node.bind (nodeOfId g) = some nbNd) (f : Edge)
    (hf : findEdgeBetween g u nbNd.uid = some f) :
    PrimPQEntryOK g proc (f.id, en.weight) := by
  refine ⟨f, List.mem_of_find?_eq_some hf, rfl,
    (findEdgeBetween_weight g hwf u nd hnd en hen nbNd hnb f hf), ?_⟩
  have hfp : (f.source = u ∧ f.target = nbNd.uid)
      ∨ (g.isDirected = false ∧ f.source = nbNd.uid ∧ f.target = u) := by
    simpa using List.find?_some hf
  rcases hfp with ⟨hfs, _⟩ | ⟨_, _, hft⟩
  · exact Or.inl (hfs ▸ hu)
  · exact Or.inr (hft ▸ hu)

/-- Fold-invariance principle. -/
theorem foldl_preserve {α β : Type} (P : β → Prop) (f : β → α → β) :
    ∀ (l : List α) (b0 : β), P b0 → (∀ b, P b → ∀ a ∈ l, P (f b a)) → P (l.foldl f b0) := by
  intro l
  induction l with
  | nil => intro b0 h0 _; exact h0
  | cons x rest ih =>
    intro b0 h0 hstep
    rw [List.foldl_cons]
    exact ih (f b0 x) (hstep b0 h0 x (List.mem_cons_self _ _))
      (fun b hb a ha => hstep b hb a (List.mem_cons_of_mem _ ha))

/-- The weight-accounting invariant of a Prim run. -/
def PrimInvFull (g : Graph) (st : PrimState) : Prop :=
  (∀ p ∈ st.priorityQueue, PrimPQEntryOK g st.processedNodes p) ∧
  (∀ id ∈ st.mstEdges, ∀ e ∈ g.edges, e.id = id →
    e.source ∈ st.processedNodes ∧ e.target ∈ st.processedNodes) ∧
  st.totalWeight = mstWeight g st.mstEdges

/-- `initializePrim` establishes the Prim invariant. -/
theorem setupPrim_inv (g : Graph) (hwf : PrimGraphWF g) (sid : Nat) (st0 : PrimState)
    (h0 : setupPrim g primIdle sid = some st0) : PrimInvFull g st0 := by
  unfold setupPrim at h0
  split at h0
  · exact absurd h0 (by simp)
  rename_i sourceNode hsid
  split at h0
  · exact absurd h0 (by simp)
  rename_i curNd hcur
  rw [Option.some_inj] at h0
  subst h0
  refine ⟨?_, ?_, ?_⟩
  · simp only
    refine foldl_preserve (fun pq => ∀ p ∈ pq, PrimPQEntryOK g {sourceNode.uid} p) _ _ _
      (by simp) ?_
    intro pq hpq en hen p hp
    rcases hres : en.node.bind (nodeOfId g) with _ | nbNd
    · simp only [hres] at hp
      exact hpq p hp
    · simp only [hres] at hp
      rcases hfind : findEdgeBetween g sourceNode.uid nbNd.uid with _ | edge
      · simp only [hfind] at hp
        exact hpq p hp
      · simp only [hfind] at hp
        rcases List.mem_append.mp hp with hp | hp
        · exact hpq p hp
        · rcases List.mem_singleton.mp hp with rfl
          exact prim_push_ok g hwf sourceNode.uid curNd hcur {sourceNode.uid}
            (Finset.mem_singleton_self _) en hen nbNd hres edge hfind
  · intro id hid
    simp at hid
  · simp [mstWeight]

/-- One Prim step preserves the weight invariant, and either leaves
`(mstEdges, totalWeight)` unchanged or adds exactly one fresh edge id
and its stored weight. -/
theorem prim_step_inv (g : Graph) (hwf : PrimGraphWF g) (st : PrimState)
    (inv : PrimInvFull g st) :
    PrimInvFull g (runPrimStep g st) ∧
    (((runPrimStep g st).mstEdges = st.mstEdges ∧
      (runPrimStep g st).totalWeight = st.totalWeight) ∨
     (∃ id, id ∉ st.mstEdges ∧ (runPrimStep g st).mstEdges = insert id st.mstEdges ∧
      (runPrimStep g st).totalWeight = st.totalWeight + weightOfEdgeId g id)) := by
  obtain ⟨hpq, hmstp, hsum⟩ := inv
  have heids : (g.edges.map (fun e => e.id)).Nodup := hwf.2.2.1
  by_cases hp : st.isPaused = true
  · have hstep : runPrimStep g st = st := by simp [runPrimStep, hp]
    rw [hstep]
    exact ⟨⟨hpq, hmstp, hsum⟩, Or.inl ⟨rfl, rfl⟩⟩
  rw [Bool.not_eq_true] at hp
  by_cases hq : st.priorityQueue = []
  · by_cases hcard : st.processedNodes.card < g.nodes.length
    · have hstep : runPrimStep g st = { st with
          isRunning := false
          error := some "Graph is disconnected. Cannot construct complete MST." } := by
        simp [runPrimStep, hp, hq, hcard]
      rw [hstep]
      exact ⟨⟨hpq, hmstp, hsum⟩, Or.inl ⟨rfl, rfl⟩⟩
    · have hstep : runPrimStep g st = { st with isRunning := false } := by
        simp [runPrimStep, hp, hq, hcard]
      rw [hstep]
      exact ⟨⟨hpq, hmstp, hsum⟩, Or.inl ⟨rfl, rfl⟩⟩
  rcases hsort : stableSort (primQueueLe g) st.priorityQueue with _ | ⟨⟨currentEdgeId, w⟩, restQ⟩
  · have hstep : runPrimStep g st = st := by
      simp [runPrimStep, hp, hq, hsort]
    rw [hstep]
    exact ⟨⟨hpq, hmstp, hsum⟩, Or.inl ⟨rfl, rfl⟩⟩
  rcases hfind : g.edges.find? (fun e => e.id = currentEdgeId) with _ | currentEdge
  · have hstep : runPrimStep g st = st := by
      simp [runPrimStep, hp, hq, hsort, hfind]
    rw [hstep]
    exact ⟨⟨hpq, hmstp, hsum⟩, Or.inl ⟨rfl, rfl⟩⟩
  have hpop : ((currentEdgeId, w) : Nat × Int) ∈ st.priorityQueue := by
    refine (mem_stableSort (primQueueLe g) st.priorityQueue _).mp ?_
    rw [hsort]
    exact List.mem_cons_self _ _
  obtain ⟨e0, he0mem, he0id, he0w, he0proc⟩ := hpq _ hpop
  have hcemem : currentEdge ∈ g.edges := List.mem_of_find?_eq_some hfind
  have hceid : currentEdge.id = currentEdgeId := by simpa using List.find?_some hfind
  have hce0 : currentEdge = e0 :=
    List.inj_on_of_nodup_map heids hcemem he0mem (by rw [hceid, he0id])
  have hcew : currentEdge.weight = w := by rw [hce0]; exact he0w
  have hrest : ∀ p ∈ restQ, p ∈ st.priorityQueue := by
    intro p hp2
    refine (mem_stableSort (primQueueLe g) st.priorityQueue _).mp ?_
    rw [hsort]
    exact List.mem_cons_of_mem _ hp2
  by_cases hboth : currentEdge.source ∈ st.processedNodes ∧ currentEdge.target ∈ st.processedNodes
  · have hstep : runPrimStep g st = { st with priorityQueue := restQ } := by
      simp only [runPrimStep, hp, hq, hsort, hfind, Bool.false_eq_true, if_false]
      rw [if_pos hboth]
    rw [hstep]
    refine ⟨⟨?_, hmstp, hsum⟩, Or.inl ⟨rfl, rfl⟩⟩
    intro p hp2
    exact hpq p (hrest p hp2)
  · have hfresh : currentEdgeId ∉ st.mstEdges := by
      intro hin
      exact hboth (hmstp currentEdgeId hin currentEdge hcemem hceid)
    have hw : weightOfEdgeId g currentEdgeId = w := by
      rw [← hceid, weightOfEdgeId_eq g heids currentEdge hcemem, hcew]
    have hstep : runPrimStep g st = { st with
        currentNode := some (if currentEdge.source ∈ st.processedNodes
          then currentEdge.target else currentEdge.source)
        priorityQueue :=
          (match nodeOfUid g (if currentEdge.source ∈ st.processedNodes
              then currentEdge.target else currentEdge.source) with
            | none => restQ
            | some newNd =>
              (stableSort (fun a b => a.node.getD 0 ≤ b.node.getD 0)
                  (adjacencyList g newNd.id)).foldl
                (fun pq en =>
                  match en.node.bind (nodeOfId g) with
                  | none => pq
                  | some nbNd =>
                    if nbNd.uid ∈ insert (if currentEdge.source ∈ st.processedNodes
                        then currentEdge.target else currentEdge.source) st.processedNodes
                    then pq
                    else
                      match findEdgeBetween g (if currentEdge.source ∈ st.processedNodes
                          then currentEdge.target else currentEdge.source) nbNd.uid with
                      | none => pq
                      | some edge =>
                        if pq.any (fun p => p.1 = edge.id) then pq
                        else pq ++ [(edge.id, en.weight)])
                restQ)
        processedNodes := insert (if currentEdge.source ∈ st.processedNodes
          then currentEdge.target else currentEdge.source) st.processedNodes
        visitedEdges := insert currentEdgeId st.visitedEdges
        mstEdges := insert currentEdgeId st.mstEdges
        totalWeight := st.totalWeight + w
        currentEdge := some currentEdgeId
        iterationCount := st.iterationCount + 1 } := by
      simp only [runPrimStep, hp, hq, hsort, hfind, Bool.false_eq_true, if_false]
      rw [if_neg hboth]
    rw [hstep]
    refine ⟨⟨?_, ?_, ?_⟩, Or.inr ⟨currentEdgeId, hfresh, rfl, by rw [hw]⟩⟩
    · -- candidate entries remain well formed
      intro p hp2
      simp only at hp2
      rcases hnu : nodeOfUid g (if currentEdge.source ∈ st.processedNodes
          then currentEdge.target else currentEdge.source) with _ | newNd
      · rw [hnu] at hp2
        exact primPQEntryOK_mono g st.processedNodes _ (Finset.subset_insert _ _) p
          (hpq p (hrest p hp2))
      · rw [hnu] at hp2
        refine foldl_preserve
          (fun pq => ∀ p2 ∈ pq, PrimPQEntryOK g (insert (if currentEdge.source ∈ st.processedNodes
            then currentEdge.target else currentEdge.source) st.processedNodes) p2)
          _ _ _ ?_ ?_ p hp2
        · intro p2 hp3
          exact primPQEntryOK_mono g st.processedNodes _ (Finset.subset_insert _ _) p2
            (hpq p2 (hrest p2 hp3))
        · intro pq hpq2 en hen p2 hp3
          rcases hres : en.node.bind (nodeOfId g) with _ | nbNd
          · simp only [hres] at hp3
            exact hpq2 p2 hp3
          · simp only [hres] at hp3
            by_cases hproc : nbNd.uid ∈ insert (if currentEdge.source ∈ st.processedNodes
                then currentEdge.target else currentEdge.source) st.processedNodes
            · rw [if_pos hproc] at hp3
              exact hpq2 p2 hp3
            · rw [if_neg hproc] at hp3
              rcases hfind2 : findEdgeBetween g (if currentEdge.source ∈ st.processedNodes
                  then currentEdge.target else currentEdge.source) nbNd.uid with _ | edge
              · simp only [hfind2] at hp3
                exact hpq2 p2 hp3
              · simp only [hfind2] at hp3
                by_cases hdup : pq.any (fun p => p.1 = edge.id) = true
                · rw [if_pos hdup] at hp3
                  exact hpq2 p2 hp3
                · rw [if_neg hdup] at hp3
                  rcases List.mem_append.mp hp3 with hp4 | hp4
                  · exact hpq2 p2 hp4
                  · rcases List.mem_singleton.mp hp4 with rfl
                    exact prim_push_ok g hwf _ newNd hnu _ (Finset.mem_insert_self _ _)
                      en ((mem_stableSort _ _ _).mp hen) nbNd hres edge hfind2
    · -- MST edges stay inside the processed set
      intro id hid e hemem2 hid2
      simp only at hid ⊢
      rcases Finset.mem_insert.mp hid with rfl | hid3
      · have hece : e = currentEdge :=
          List.inj_on_of_nodup_map heids hemem2 hcemem (by rw [hid2, hceid])
        subst hece
        by_cases hsrc : e.source ∈ st.processedNodes
        · exact ⟨Finset.mem_insert_of_mem hsrc, by rw [if_pos hsrc]; exact Finset.mem_insert_self _ _⟩
        · have htgt : e.target ∈ st.processedNodes := by
            rcases he0proc with h | h
            · exact absurd (hce0 ▸ h) hsrc
            · exact hce0 ▸ h
          exact ⟨by rw [if_neg hsrc]; exact Finset.mem_insert_self _ _,
            Finset.mem_insert_of_mem htgt⟩
      · obtain ⟨h1, h2⟩ := hmstp id hid3 e hemem2 hid2
        exact ⟨Finset.mem_insert_of_mem h1, Finset.mem_insert_of_mem h2⟩
    · -- weight accounting
      simp only
      unfold mstWeight
      rw [Finset.sum_insert hfresh]
      unfold mstWeight at hsum
      rw [hsum, hw]
      ring

/-- `startKruskal` establishes the Kruskal weight invariant. -/
theorem kruskal_start_weight (g : Graph) (d0 : DSU) (st0 : KruskalState)
    (h0 : startKruskal g kruskalIdle = some (d0, st0)) : KruskalWeightInv g st0 := by
  by_cases hw : g.isWeighted = false
  · rw [startKruskal, if_neg (by simp [kruskalIdle]), if_pos hw] at h0
    exact absurd h0 (by simp)
  by_cases hd : g.isDirected = true
  · rw [startKruskal, if_neg (by simp [kruskalIdle]), if_neg hw, if_pos hd] at h0
    exact absurd h0 (by simp)
  rw [startKruskal, if_neg (by simp [kruskalIdle]), if_neg hw, if_neg hd,
    Option.some_inj] at h0
  obtain ⟨_, hst0⟩ := Prod.ext_iff.mp h0
  have hst0b : ({ kruskalIdle with
      isRunning := true
      isPaused := false
      isComplete := false
      visitedNodes := ∅
      visitedEdges := ∅
      currentEdge := none
      mstEdges := ∅
      totalWeight := 0
      edgesProcessed := 0
      sortedEdges := stableSort (kruskalEdgeLe g) g.edges
      currentStep := 0
      components := (dsuGetComponents
        (g.nodes.foldl (fun d n => dsuMakeSet d n.uid) dsuEmpty)).1
      numComponents := (dsuGetComponents
        (g.nodes.foldl (fun d n => dsuMakeSet d n.uid) dsuEmpty)).2
      error := none } : KruskalState) = st0 := hst0
  rw [← hst0b]
  refine ⟨?_, stableSort_perm _ _, ?_⟩
  · intro id hid
    simp at hid
  · simp [mstWeight]

/-- The completion write leaves the weight fields alone. -/
theorem kruskal_complete_weight (g : Graph) (st : KruskalState)
    (inv : KruskalWeightInv g st) : KruskalWeightInv g (kruskalComplete st) := by
  obtain ⟨h1, h2, h3⟩ := inv
  exact ⟨h1, h2, h3⟩

/-- Every reachable Kruskal state satisfies the weight invariant. -/
theorem kruskalReach_weightInv (g : Graph) (hno : EdgeIdsNodup g) (d : DSU)
    (st : KruskalState) (h : KruskalReach g d st) : KruskalWeightInv g st := by
  induction h with
  | start d0 st0 h0 => exact kruskal_start_weight g d0 st0 h0
  | step d st _ ih => exact (kruskal_step_weight g hno d st ih).1
  | complete d st _ ih => exact kruskal_complete_weight g st ih

/-- The states a Prim run can reach: the seeded start state, any number
of steps, the pause toggle's flag flip, and the driving loop's final
`isRunning := false` write. -/
inductive PrimReach (g : Graph) : PrimState → Prop where
  | start (sid : Nat) (st0 : PrimState) (h : setupPrim g primIdle sid = some st0) :
      PrimReach g st0
  | step (st : PrimState) (h : PrimReach g st) : PrimReach g (runPrimStep g st)
  | pause (st : PrimState) (h : PrimReach g st) :
      PrimReach g { st with isPaused := !st.isPaused }
  | finish (st : PrimState) (h : PrimReach g st) :
      PrimReach g { st with isRunning := false }

/-- Every reachable Prim state satisfies the weight invariant. -/
theorem primReach_weightInv (g : Graph) (hwf : PrimGraphWF g) (st : PrimState)
    (h : PrimReach g st) : PrimInvFull g st := by
  induction h with
  | start sid st0 h0 => exact setupPrim_inv g hwf sid st0 h0
  | step st _ ih => exact (prim_step_inv g hwf st ih).1
  | pause st _ ih => exact ih
  | finish st _ ih => exact ih

/-- C10: in every state reachable during a Kruskal or a Prim run (under
the graph-store invariants: unique edge ids, and for Prim also unique
node ids/uids and no duplicate endpoint pairs), `totalWeight` equals the
sum of the stored weights of the edges in `mstEdges`; and every step
either leaves `(mstEdges, totalWeight)` unchanged or inserts exactly one
fresh edge id while adding exactly that edge's stored weight. -/
theorem mst_total_weight_invariant :
    (∀ (g : Graph) (d : DSU) (st : KruskalState), EdgeIdsNodup g → KruskalReach g d st →
      st.totalWeight = mstWeight g st.mstEdges ∧
      (((runKruskalStep g d st).2.mstEdges = st.mstEdges ∧
        (runKruskalStep g d st).2.totalWeight = st.totalWeight) ∨
       (∃ id, id ∉ st.mstEdges ∧ (runKruskalStep g d st).2.mstEdges = insert id st.mstEdges ∧
        (runKruskalStep g d st).2.totalWeight = st.totalWeight + weightOfEdgeId g id))) ∧
    (∀ (g : Graph) (st : PrimState), PrimGraphWF g → PrimReach g st →
      st.totalWeight = mstWeight g st.mstEdges ∧
      (((runPrimStep g st).mstEdges = st.mstEdges ∧
        (runPrimStep g st).totalWeight = st.totalWeight) ∨
       (∃ id, id ∉ st.mstEdges ∧ (runPrimStep g st).mstEdges = insert id st.mstEdges ∧
        (runPrimStep g st).totalWeight = st.totalWeight + weightOfEdgeId g id))) := by
  constructor
  · intro g d st hno hreach
    have hinv := kruskalReach_weightInv g hno d st hreach
    exact ⟨hinv.2.2, (kruskal_step_weight g hno d st hinv).2⟩
  · intro g st hwf hreach
    have hinv := primReach_weightInv g hwf st hreach
    exact ⟨hinv.2.2, (prim_step_inv g hwf st hinv).2⟩

/-- The Prim start state on the two-component fixture. -/
def primTwoCompStart : PrimState := (setupPrim gTwoComponents primIdle 0).getD primIdle

/-- C10 witness: the invariant applied to concrete reachable states —
the Kruskal start state and one Prim step after the start state on the
two-component fixture. -/
theorem mst_total_weight_invariant_witness :
    kruskalTwoCompStart.2.totalWeight = mstWeight gTwoComponents kruskalTwoCompStart.2.mstEdges ∧
    (runPrimStep gTwoComponents primTwoCompStart).totalWeight
      = mstWeight gTwoComponents (runPrimStep gTwoComponents primTwoCompStart).mstEdges := by
  constructor
  · exact (mst_total_weight_invariant.1 gTwoComponents kruskalTwoCompStart.1
      kruskalTwoCompStart.2 (by unfold EdgeIdsNodup; decide)
      (KruskalReach.start kruskalTwoCompStart.1 kruskalTwoCompStart.2 rfl)).1
  · exact (mst_total_weight_invariant.2 gTwoComponents
      (runPrimStep gTwoComponents primTwoCompStart)
      ⟨by decide, by decide, by decide, by unfold NoDupEndpointPairs; decide⟩
      (PrimReach.step primTwoCompStart (PrimReach.start 0 primTwoCompStart rfl))).1
